import Mathlib

/-!
A verification development for the fm-odata-client repository.

The batch multipart codec (`src/BatchRequest.ts`) is embedded shallowly:
strings are `List Char`, and the JavaScript string primitives used by the
source (`indexOf`, `split` with a string separator, `slice`, `trim`,
`startsWith`, `Number.parseInt`) are embedded as executable functions with
JavaScript semantics.  Web-platform `Headers` objects are modelled as ordered
association lists with case-insensitive lookup, and the platform's checks are
part of the embedding: `Headers.prototype.append` normalizes the value and
throws `TypeError` on an invalid header name or value, and the `Response`
constructor throws `RangeError` for a status outside 200-599 and `TypeError`
for a null-body status with a string body or an invalid reason phrase.  A
`Request` body stream is modelled as its content together with a consumed
flag (reading the stream via `streamToString` marks it consumed).  Throwing
code is modelled with `Except` over an error type separating the source's
descriptive `Error`s from the platform's `TypeError`/`RangeError`.  The
identity token manager (`ClarisId`) is not part of the sources, so its
single-flight behaviour is modelled from the specification.
-/

namespace FMOData

/-- Strings of the embedded program are lists of characters. -/
abbrev Str := List Char

/-- The character list of a Lean string literal. -/
def strL (s : String) : Str := s.data

/-- Characters treated as whitespace by JavaScript string trimming. -/
def jsWs (c : Char) : Bool :=
  c == ' ' || c == '\t' || c == '\n' || c == '\r' || c == '\x0b' || c == '\x0c'

/-- JavaScript `String.prototype.trim` (removes whitespace from both ends). -/
def jsTrim (s : Str) : Str :=
  ((s.dropWhile jsWs).reverse.dropWhile jsWs).reverse

/-- Lower-casing, used to model case-insensitive header-name comparison. -/
def lowerStr (s : Str) : Str := s.map Char.toLower

/-- Carriage return / line feed. -/
def crlf : Str := strL "\r\n"

/-- The blank-line separator between MIME headers and body. -/
def crlf2 : Str := strL "\r\n\r\n"

/-- JavaScript `String.prototype.indexOf` for a substring pattern: the index
of the leftmost occurrence, `none` when there is no occurrence. -/
def findSub : Str → Str → Option Nat
  | [], pat => if pat.isPrefixOf [] then some 0 else none
  | s@(_ :: rest), pat => if pat.isPrefixOf s then some 0 else (findSub rest pat).map (· + 1)

/-- Fuelled worker for `splitSub`; the fuel is structural so that the kernel
can evaluate it. -/
def splitSubF : Nat → Str → Str → List Str
  | 0, _, s => [s]
  | fuel + 1, sep, s =>
    if sep = [] then s.map (fun c => [c])
    else match findSub s sep with
      | none => [s]
      | some i => s.take i :: splitSubF fuel sep (s.drop (i + sep.length))

/-- JavaScript `String.prototype.split` with a string separator: repeatedly
cut at the leftmost occurrence of the separator. -/
def splitSub (sep s : Str) : List Str := splitSubF (s.length + 1) sep s

/-- Web `Headers` objects are modelled as ordered name/value pair lists. -/
abbrev Headers := List (Str × Str)

/-- JavaScript `Headers.prototype.get`: case-insensitive lookup; all matching
values are joined with a comma and a space; `none` models `null`. -/
def hget (hs : Headers) (name : Str) : Option Str :=
  match hs.filter (fun kv => lowerStr kv.1 == lowerStr name) with
  | [] => none
  | kv :: rest => some (List.intercalate (strL ", ") ((kv :: rest).map (fun kv => kv.2)))

/-- An exception of the embedded program: the descriptive `Error` objects the
source throws on format violations, and the `TypeError`/`RangeError` raised
by the web platform inside `Headers.prototype.append` and the `Response`
constructor. -/
inductive JsErr where
  | formatError (msg : Str) : JsErr
  | typeError : JsErr
  | rangeError : JsErr
deriving DecidableEq

/-- An HTTP token code point, the only characters allowed in a header name
(the Fetch standard's header-name check used by `Headers.prototype.append`);
code 39 is the apostrophe and code 96 the backquote. -/
def isTokenChar (c : Char) : Bool :=
  c.isAlphanum || c == '!' || c == '#' || c == '$' || c == '%' || c == '&' ||
  c.toNat == 39 || c == '*' || c == '+' || c == '-' || c == '.' || c == '^' ||
  c == '_' || c.toNat == 96 || c == '|' || c == '~'

/-- A valid header name: nonempty and made of HTTP token code points. -/
def validHName (s : Str) : Bool := (!s.isEmpty) && s.all isTokenChar

/-- HTTP whitespace, stripped from header values by normalization. -/
def httpWs (c : Char) : Bool := c == '\t' || c == '\n' || c == '\r' || c == ' '

/-- Header-value normalization of `Headers.prototype.append`: strip leading
and trailing HTTP whitespace. -/
def normalizeHv (s : Str) : Str :=
  ((s.dropWhile httpWs).reverse.dropWhile httpWs).reverse

/-- A valid header value: no NUL, LF or CR characters. -/
def validHv (s : Str) : Bool :=
  s.all (fun c => !(c == '\x00' || c == '\n' || c == '\r'))

/-- Embedding of `Headers.prototype.append`: normalize the value, then throw `TypeError`
if the name is not a header name or the value not a header value, else push
the pair. -/
def hAppend (hs : Headers) (k v : Str) : Except JsErr Headers :=
  if validHName k && validHv (normalizeHv v) then .ok (hs ++ [(k, normalizeHv v)])
  else .error .typeError

/-- One header line of `BatchRequest.splitPart`: name before the first colon,
value after it, trimmed.  When there is no colon, JavaScript slice semantics
apply: `slice(0, -1)` drops the last character and `slice(0)` is the whole
line. -/
def parseHeaderLine (line : Str) : Str × Str :=
  match findSub line (strL ":") with
  | some i => (line.take i, jsTrim (line.drop (i + 1)))
  | none => (line.take (line.length - 1), jsTrim line)

/-- The header-appending loop of `BatchRequest.splitPart`: each parsed line
goes through `Headers.prototype.append`, which can throw. -/
def appendLines : Headers → List Str → Except JsErr Headers
  | hs, [] => .ok hs
  | hs, line :: rest =>
    match hAppend hs (parseHeaderLine line).1 (parseHeaderLine line).2 with
    | .error e => .error e
    | .ok hs2 => appendLines hs2 rest

/-- The header-block parsing of `BatchRequest.splitPart`: split the raw
header text on CRLF and append each parsed line to a fresh `Headers`. -/
def parseRawHeaders (raw : Str) : Except JsErr Headers :=
  appendLines [] (splitSub crlf raw)

/-- Embedding of `BatchRequest.splitPart`.  A part starting with CRLF has no
headers (no `append` runs, so this branch never throws); a part without a
blank-line separator falls into JavaScript's `indexOf = -1` slices:
`slice(0, -1)` for the headers and `slice(3)` for the body; header
construction propagates the `TypeError` of `Headers.prototype.append`. -/
def splitPart (part : Str) : Except JsErr (Headers × Str) :=
  if crlf.isPrefixOf part then .ok ([], part.drop 2)
  else match findSub part crlf2 with
    | some i =>
      match parseRawHeaders (part.take i) with
      | .error e => .error e
      | .ok hs => .ok (hs, part.drop (i + 4))
    | none =>
      match parseRawHeaders (part.take (part.length - 1)) with
      | .error e => .error e
      | .ok hs => .ok (hs, part.drop 3)

/-- Error message of `BatchRequest.getBoundary` for a missing header. -/
def msgRespNoCT : Str := strL "Response is missing Content-Type header"

/-- Error message of `BatchRequest.getBoundary` for a missing boundary. -/
def msgNoBoundary : Str := strL "Content-Type header is missing boundary"

/-- Error message of `BatchRequest.parseMultipartResponse` for a part without
a content type. -/
def msgPartNoCT : Str := strL "Multipart part is missing content-type header"

/-- Error-message prelude of `BatchRequest.parseMultipartResponse` for an
unknown content type. -/
def msgUnknownCT : Str := strL "Unknown content-type: "

/-- The `Content-Type` header name. -/
def ctKey : Str := strL "Content-Type"

/-- Embedding of `BatchRequest.getBoundary`: extract the `boundary=`
attribute of the `Content-Type` header value.  The source's
`if (!contentType)` guard is falsy on both `null` and the empty string. -/
def getBoundary (hs : Headers) : Except JsErr Str :=
  match hget hs ctKey with
  | none => .error (.formatError msgRespNoCT)
  | some contentType =>
    if contentType = [] then .error (.formatError msgRespNoCT)
    else match ((splitSub (strL ";") contentType).map jsTrim).find?
        (fun part => (strL "boundary=").isPrefixOf part) with
      | none => .error (.formatError msgNoBoundary)
      | some boundaryPart => .ok ((splitSub (strL "=") boundaryPart).getD 1 [])

/-- The numeric value of a decimal digit character. -/
def digitVal (c : Char) : Nat := c.toNat - 48

/-- The numeric value of a digit string, most significant digit first. -/
def digitsVal (ds : Str) : Nat := ds.foldl (fun a c => 10 * a + digitVal c) 0

/-- The longest digit prefix of a string as a number, `none` when empty. -/
def digitsPre (u : Str) : Option Nat :=
  let ds := u.takeWhile Char.isDigit
  if ds = [] then none else some (digitsVal ds)

/-- JavaScript `Number.parseInt(s, 10)`: skip leading whitespace, take an
optional sign and then the longest digit prefix; NaN (modelled as `none`)
when no digit follows. -/
def parseIntJs (s : Str) : Option Int :=
  match s.dropWhile jsWs with
  | [] => none
  | c :: u =>
    if c = '-' then (digitsPre u).map (fun n => -(n : Int))
    else if c = '+' then (digitsPre u).map (fun n => (n : Int))
    else (digitsPre (c :: u)).map (fun n => (n : Int))

/-- The decimal digit character for a value below ten. -/
def digitChar : Nat → Char
  | 0 => '0'
  | 1 => '1'
  | 2 => '2'
  | 3 => '3'
  | 4 => '4'
  | 5 => '5'
  | 6 => '6'
  | 7 => '7'
  | 8 => '8'
  | _ => '9'

/-- Fuelled decimal printing helper (fuel keeps it structural). -/
def natDigitsF : Nat → Nat → Str → Str
  | 0, _, acc => acc
  | fuel + 1, n, acc =>
    if n = 0 then acc else natDigitsF fuel (n / 10) (digitChar (n % 10) :: acc)

/-- The decimal digit string of a natural number. -/
def natDigits (n : Nat) : Str := if n = 0 then ['0'] else natDigitsF n n []

/-- The WebIDL `unsigned short` conversion applied to `ResponseInit.status`:
NaN (modelled as `none`) becomes 0, integers wrap modulo 2^16. -/
def toU16 : Option Int → Nat
  | none => 0
  | some z => (z % 65536).toNat

/-- A null-body status within the constructible 200-599 range (101 and 103
are also null-body statuses but are already excluded by the range check). -/
def nullBodyStatus (s : Nat) : Bool := s == 204 || s == 205 || s == 304

/-- One character of an HTTP reason phrase: HTAB, SP, VCHAR or obs-text. -/
def isReasonChar (c : Char) : Bool :=
  c == '\t' || c == ' ' || (33 ≤ c.toNat && c.toNat ≤ 126)
    || (128 ≤ c.toNat && c.toNat ≤ 255)

/-- A valid `statusText`: every character is a reason-phrase character. -/
def validReason (s : Str) : Bool := s.all isReasonChar

/-- The observable fields of a successfully constructed web `Response`. -/
structure Resp where
  status : Nat
  statusText : Str
  headers : Headers
  body : Str
deriving DecidableEq

/-- The `new Response(body, { headers, status, statusText })` call of
`BatchRequest.parseHttpResponse`, with the Fetch standard's checks in the
order the constructor performs them: `RangeError` when the status (after
`unsigned short` conversion) is outside 200-599, `TypeError` when the status
text is not a reason phrase, and `TypeError` when the status is a null-body
status — the body argument is always a string here, never null. -/
def mkResponse (body : Str) (st : Option Int) (stext : Str) (hs : Headers) :
    Except JsErr Resp :=
  if decide (200 ≤ toU16 st) && decide (toU16 st ≤ 599) then
    if validReason stext then
      if nullBodyStatus (toU16 st) then .error .typeError
      else .ok { status := toU16 st, statusText := stext, headers := hs, body := body }
    else .error .typeError
  else .error .rangeError

/-- Embedding of `BatchRequest.parseHttpResponse`: status line before the
first CRLF, then headers and body via `splitPart` (whose `TypeError`
propagates), then the `Response` constructor on the trimmed body.  JavaScript
slice semantics at a missing CRLF: `slice(0, -1)` and `slice(1)`. -/
def parseHttpResponse (rawResponse : Str) : Except JsErr Resp :=
  let lineBody : Str × Str :=
    match findSub rawResponse crlf with
    | some i => (rawResponse.take i, rawResponse.drop (i + 2))
    | none => (rawResponse.take (rawResponse.length - 1), rawResponse.drop 1)
  let ws := splitSub (strL " ") lineBody.1
  match splitPart lineBody.2 with
  | .error e => .error e
  | .ok hb =>
    mkResponse (jsTrim hb.2) (parseIntJs (ws.getD 1 []))
      (List.intercalate (strL " ") (ws.drop 2)) hb.1

/-- An HTTP-style operation supplied by the caller: a web `Request`, with its
body stream modelled as the body content plus a consumed (`bodyUsed`) flag
following web-stream semantics. -/
structure Req where
  method : Str
  url : Str
  headers : Headers
  body : Option Str
  bodyUsed : Bool
deriving DecidableEq

/-- An envelope element of `BatchRequest.operations`: a lone operation or a
changeset. -/
inductive BatchOp where
  | single (r : Req) : BatchOp
  | changeset (rs : List Req) : BatchOp
deriving DecidableEq

/-- Materialize the open changeset (the source's `lastChangeset` aliases the
last element of `operations` while a changeset is open). -/
def closeChangeset : Option (List Req) → List BatchOp
  | none => []
  | some rs => [.changeset rs]

/-- One step of `BatchRequest.addRequest` on the constructor state: the closed
envelope prefix and the currently open changeset. -/
def addRequest (acc : List BatchOp × Option (List Req)) (r : Req) :
    List BatchOp × Option (List Req) :=
  if r.method = strL "GET" then (acc.1 ++ closeChangeset acc.2 ++ [.single r], none)
  else match acc.2 with
    | none => (acc.1, some [r])
    | some rs => (acc.1, some (rs ++ [r]))

/-- The `operations` array built by the `BatchRequest` constructor. -/
def buildOperations (ops : List Req) : List BatchOp :=
  let st := ops.foldl addRequest ([], none)
  st.1 ++ closeChangeset st.2

/-- The flattened operation sequence of an envelope. -/
def flattenOps (env : List BatchOp) : List Req :=
  env.flatMap (fun op => match op with
    | .single r => [r]
    | .changeset rs => rs)

/-- Embedding of `BatchRequest.formatRequestHeaders`: emit `name: value` lines, skipping
any `Authorization` header (matched case-insensitively). -/
def formatRequestHeaders : Headers → List Str
  | [] => []
  | (k, v) :: rest =>
    if lowerStr k = strL "authorization" then formatRequestHeaders rest
    else (k ++ strL ": " ++ v) :: formatRequestHeaders rest

/-- Embedding of `BatchRequest.formatRequest`: the MIME part text for one operation,
together with the operation after `streamToString` has consumed its body
stream. -/
def formatRequest (r : Req) : Str × Req :=
  let read : Str × Req :=
    match r.body with
    | some s => (s, { r with bodyUsed := true })
    | none => ([], r)
  (List.intercalate crlf
      ([strL "Content-Type: application/http",
        strL "Content-Transfer-Encoding: binary",
        [],
        r.method ++ strL " " ++ r.url ++ strL " HTTP/1.1"]
       ++ formatRequestHeaders r.headers
       ++ [[], read.1]),
   read.2)

/-- The part opener `--b` followed by CRLF. -/
def sepFor (b : Str) : Str := strL "--" ++ b ++ crlf

/-- The closing boundary marker `--b--`. -/
def endMark (b : Str) : Str := strL "--" ++ b ++ strL "--"

/-- The changeset part built by `BatchRequest.toRequest`: nested multipart
framing for one changeset, also returning the member operations with consumed
bodies. -/
def changesetPart (b cb : Str) (rs : List Req) : Str × List Req :=
  let prs := rs.map formatRequest
  (List.intercalate crlf
      ([strL "--" ++ b,
        strL "Content-Type: multipart/mixed; boundary=" ++ cb,
        []]
       ++ prs.map (fun pr => sepFor cb ++ pr.1)
       ++ [endMark cb]),
   prs.map (fun pr => pr.2))

/-- The envelope-level headers set by `BatchRequest.toRequest`. -/
def toRequestHeaders (auth b : Str) : Headers :=
  [(strL "Authorization", auth),
   (strL "OData-Version", strL "4.0"),
   (strL "Content-Type", strL "multipart/mixed; boundary=" ++ b)]

/-- The top-level part list of `BatchRequest.toRequest`, threading the index
into the changeset-boundary generator and collecting the operations with
consumed bodies. -/
def toRequestParts (b : Str) (cbf : Nat → Str) : List BatchOp → Nat → List Str × List Req
  | [], _ => ([], [])
  | .single r :: rest, i =>
    let pr := formatRequest r
    let tl := toRequestParts b cbf rest i
    ((sepFor b ++ pr.1) :: tl.1, pr.2 :: tl.2)
  | .changeset rs :: rest, i =>
    let cp := changesetPart b (cbf i) rs
    let tl := toRequestParts b cbf rest (i + 1)
    (cp.1 :: tl.1, cp.2 ++ tl.2)

/-- Embedding of `BatchRequest.toRequest`, with the random top-level boundary and the
per-changeset boundaries supplied as parameters: the outer wire request and
the caller's operations after serialization. -/
def toRequest (serviceEndpoint auth b : Str) (cbf : Nat → Str) (env : List BatchOp) :
    Req × List Req :=
  let pu := toRequestParts b cbf env 0
  ({ method := strL "POST"
     url := serviceEndpoint ++ strL "/$batch"
     headers := toRequestHeaders auth b
     body := some (List.intercalate crlf pu.1 ++ crlf ++ endMark b)
     bodyUsed := false },
   pu.2)

/-- The body-trimming step of `parseMultipartResponse`: cut at the closing
boundary marker when present, tolerate a missing one. -/
def trimAtEnd (body b : Str) : Str :=
  match findSub body (endMark b) with
  | some i => body.take i
  | none => body

/-- The raw part strings of `parseMultipartResponse`: split on the part
opener and drop the preamble. -/
def partsOf (body b : Str) : List Str :=
  (splitSub (sepFor b) (trimAtEnd body b)).drop 1

/-- The eager `.map(BatchRequest.splitPart)` over the raw parts: every part
is split (and any `TypeError` thrown, leftmost first) before the part loop
starts. -/
def splitAll : List Str → Except JsErr (List (Headers × Str))
  | [] => .ok []
  | p :: rest =>
    match splitPart p with
    | .error e => .error e
    | .ok j =>
      match splitAll rest with
      | .error e => .error e
      | .ok js => .ok (j :: js)

/-- Termination measure of the part-processing loop. -/
def partsWeight (jobs : List (Headers × Str)) : Nat :=
  (jobs.map (fun j => j.2.length + 1)).sum

/-- Weight of a raw part list. -/
def listWeight (ps : List Str) : Nat := (ps.map (fun p => p.length + 1)).sum

/-- Fuelled worker for the part-processing loop of
`BatchRequest.parseMultipartResponse` (the fuel keeps the recursion
structural; the wrapper below always supplies enough): a missing or empty
content type (the source's falsy check) is a fatal format error, an
`application/http` part is parsed as one response, a `multipart/mixed` part
is decoded as a nested envelope (the nested case inlines
`parseMultipartResponse`: boundary extraction, the eager split of every
nested part, then the recursive loop) and its responses are spliced in
order, and any other content type is a fatal format error. -/
def parsePartsF : Nat → List (Headers × Str) → Except JsErr (List Resp)
  | 0, _ => .ok []
  | _ + 1, [] => .ok []
  | fuel + 1, (phs, pbody) :: rest =>
    match hget phs ctKey with
    | none => .error (.formatError msgPartNoCT)
    | some contentType =>
      if contentType = [] then .error (.formatError msgPartNoCT)
      else if contentType = strL "application/http" then
        match parseHttpResponse pbody with
        | .error e => .error e
        | .ok r =>
          match parsePartsF fuel rest with
          | .error e => .error e
          | .ok rs => .ok (r :: rs)
      else if (strL "multipart/mixed").isPrefixOf contentType then
        match getBoundary phs with
        | .error e => .error e
        | .ok b =>
          match splitAll (partsOf pbody b) with
          | .error e => .error e
          | .ok jobs =>
            match parsePartsF fuel jobs with
            | .error e => .error e
            | .ok inner =>
              match parsePartsF fuel rest with
              | .error e => .error e
              | .ok rs => .ok (inner ++ rs)
      else .error (.formatError (msgUnknownCT ++ contentType))

/-- The part-processing loop of `BatchRequest.parseMultipartResponse`, with
sufficient fuel. -/
def parseParts (jobs : List (Headers × Str)) : Except JsErr (List Resp) :=
  parsePartsF (2 * partsWeight jobs + 1) jobs

/-- Embedding of `BatchRequest.parseMultipartResponse`: extract the boundary
from the headers, trim at the closing marker, split into parts, split every
part eagerly, and run the part loop. -/
def parseMultipartResponse (body : Str) (hs : Headers) : Except JsErr (List Resp) :=
  match getBoundary hs with
  | .error e => .error e
  | .ok b =>
    match splitAll (partsOf body b) with
    | .error e => .error e
    | .ok jobs => parseParts jobs

/-- Decidable equality for parse results, so that concrete runs of the
decoder can be checked by `decide`. -/
instance exceptDecEq {ε α : Type} [DecidableEq ε] [DecidableEq α] : DecidableEq (Except ε α)
  | .error a, .error b =>
    if h : a = b then .isTrue (by rw [h]) else .isFalse (by simp [h])
  | .error _, .ok _ => .isFalse (by simp)
  | .ok _, .error _ => .isFalse (by simp)
  | .ok a, .ok b =>
    if h : a = b then .isTrue (by rw [h]) else .isFalse (by simp [h])

/-- Changeset detector on envelope elements. -/
def isCS : BatchOp → Bool
  | .single _ => false
  | .changeset _ => true

/-- No two adjacent changesets in an envelope. -/
def noAdjCS : List BatchOp → Bool
  | a :: b :: t => (!(isCS a && isCS b)) && noAdjCS (b :: t)
  | _ => true

/-- A well-formed envelope element: a single element is a GET operation, a
changeset is a nonempty run of non-GET operations. -/
def wfItem : BatchOp → Prop
  | .single r => r.method = strL "GET"
  | .changeset rs => rs ≠ [] ∧ ∀ r ∈ rs, r.method ≠ strL "GET"

/-- Whether a list is empty or ends in a non-changeset element. -/
def endsOk : List BatchOp → Bool
  | [] => true
  | [x] => !isCS x
  | _ :: t => endsOk t

/-- The invariant of the `BatchRequest` constructor state. -/
def buildInv (acc : List BatchOp × Option (List Req)) : Prop :=
  (∀ item ∈ acc.1, wfItem item) ∧
  (∀ rs, acc.2 = some rs → rs ≠ [] ∧ ∀ r ∈ rs, r.method ≠ strL "GET") ∧
  noAdjCS acc.1 = true ∧ endsOk acc.1 = true

/-- Example operation: a GET request. -/
def exGet1 : Req :=
  { method := strL "GET", url := strL "/a", headers := [], body := none, bodyUsed := false }

/-- Example operation: a second GET request. -/
def exGet2 : Req :=
  { method := strL "GET", url := strL "/d", headers := [], body := none, bodyUsed := false }

/-- Example operation: a POST request. -/
def exPost1 : Req :=
  { method := strL "POST", url := strL "/b", headers := [], body := none, bodyUsed := false }

/-- Example operation: a second POST request. -/
def exPost2 : Req :=
  { method := strL "POST", url := strL "/c", headers := [], body := none, bodyUsed := false }

/-- Example operation: a PATCH request. -/
def exPatch1 : Req :=
  { method := strL "PATCH", url := strL "/e", headers := [], body := none, bodyUsed := false }

/-- Modelled from the spec's words, for comparison only: trimming whitespace
from the trailing end of a string and leaving the leading end alone. -/
def rtrimWs (s : Str) : Str := (s.reverse.dropWhile jsWs).reverse

/-- The shape of every error the decoder can raise: one of the four
descriptive format errors thrown by the source, or a platform `TypeError` or
`RangeError` from header or response construction. -/
def errShape (e : JsErr) : Prop :=
  e = .formatError msgRespNoCT ∨ e = .formatError msgNoBoundary ∨
  e = .formatError msgPartNoCT ∨ (∃ ct, e = .formatError (msgUnknownCT ++ ct)) ∨
  e = .typeError ∨ e = .rangeError

mutual
/-- A synthetic multipart response of arbitrary nesting depth, mirroring the
nested boundary structure that `toRequest` serializes: a leaf is an
`application/http` part carrying a status code and a body, a node is a
`multipart/mixed` sub-envelope with its own boundary. -/
inductive RTree where
  | leaf (status : Nat) (body : Str) : RTree
  | node (b : Str) (children : RForest) : RTree
inductive RForest where
  | nil : RForest
  | cons (t : RTree) (ts : RForest) : RForest
end

/-- The fixed part headers of an `application/http` part. -/
def httpPartHdr : Str :=
  strL "Content-Type: application/http\r\nContent-Transfer-Encoding: binary"

/-- The status line of a synthetic response. -/
def statusLineFor (st : Nat) : Str := strL "HTTP/1.1 " ++ natDigits st ++ strL " OK"

/-- The raw HTTP response text of a leaf: status line, no headers, body. -/
def leafHttp (st : Nat) (bd : Str) : Str := statusLineFor st ++ crlf ++ crlf ++ bd

/-- The header line announcing a nested envelope with boundary `b`. -/
def mmCtLine (b : Str) : Str := strL "Content-Type: multipart/mixed; boundary=" ++ b

/-- The header value announcing a nested envelope with boundary `b`. -/
def mmHeaderVal (b : Str) : Str := strL "multipart/mixed; boundary=" ++ b

mutual
/-- The part content (part headers, blank line, part body) of one synthetic
part. -/
def encContent : RTree → Str
  | .leaf st bd => httpPartHdr ++ crlf2 ++ leafHttp st bd
  | .node b cs => mmCtLine b ++ crlf2 ++ (joinParts b cs ++ crlf ++ endMark b)
/-- The `--b`-framed parts of a forest joined with CRLF (the `join("\r\n")`
step of `toRequest`). -/
def joinParts (b : Str) : RForest → Str
  | .nil => []
  | .cons t .nil => sepFor b ++ encContent t
  | .cons t ts => sepFor b ++ encContent t ++ crlf ++ joinParts b ts
end

/-- The full multipart body under boundary `b` in the format of `toRequest`:
joined parts, CRLF, closing marker. -/
def encBody (b : Str) (cs : RForest) : Str := joinParts b cs ++ crlf ++ endMark b

/-- The response a leaf decodes to. -/
def mkResp (st : Nat) (bd : Str) : Resp :=
  { status := st, statusText := strL "OK", headers := [], body := bd }

mutual
/-- In-order `application/http` leaves of a tree as parsed responses. -/
def leavesT : RTree → List Resp
  | .leaf st bd => [mkResp st bd]
  | .node _ cs => leavesF cs
/-- In-order `application/http` leaves of a forest as parsed responses. -/
def leavesF : RForest → List Resp
  | .nil => []
  | .cons t ts => leavesT t ++ leavesF ts
end

/-- The tail of a nonempty forest's joined body, starting after the first
part opener. -/
def tailStr (b : Str) : RForest → Str
  | .nil => []
  | .cons t .nil => encContent t ++ crlf
  | .cons t ts => encContent t ++ crlf ++ (sepFor b ++ tailStr b ts)

/-- The chunk strings of a forest after splitting on the part opener. -/
def chunksStrF : RForest → List Str
  | .nil => []
  | .cons t ts => (encContent t ++ crlf) :: chunksStrF ts

/-- The headers that `splitPart` builds from the fixed `application/http`
part header block. -/
def httpPartHeaders : Headers :=
  [(strL "Content-Type", strL "application/http"),
   (strL "Content-Transfer-Encoding", strL "binary")]

/-- The header/body job that `splitPart` produces for one synthetic part. -/
def jobOfT : RTree → Headers × Str
  | .leaf st bd => (httpPartHeaders, leafHttp st bd ++ crlf)
  | .node b cs => ([(strL "Content-Type", mmHeaderVal b)], encBody b cs ++ crlf)

/-- The header/body jobs of a forest's parts. -/
def jobsF : RForest → List (Headers × Str)
  | .nil => []
  | .cons t ts => jobOfT t :: jobsF ts

/-- Clean-chunk check: the pattern occurs neither inside the chunk nor
overlapping its right edge. -/
def cleanB (pat chunk : Str) : Bool := (findSub (chunk ++ pat.dropLast) pat).isNone

/-- Characters allowed in a boundary token. -/
def isBChar (c : Char) : Bool := c.isAlphanum || c == '_'

/-- A usable boundary: nonempty and made of safe characters (the source's
boundaries are `batch_`/`changeset_` followed by hex digits). -/
def boundaryOk (b : Str) : Bool := (!b.isEmpty) && b.all isBChar

/-- Per-chunk cleanliness of a forest's parts under a boundary. -/
def chunksOkF (b : Str) : RForest → Bool
  | .nil => true
  | .cons t ts => cleanB (sepFor b) (encContent t ++ crlf) && chunksOkF b ts

/-- A leaf status the `Response` constructor accepts for a string body: in
the 200-599 range and not a null-body status. -/
def statusOkB (st : Nat) : Bool :=
  (decide (200 ≤ st) && decide (st ≤ 599)) && !nullBodyStatus st

mutual
/-- Well-formedness of a synthetic response tree: leaf statuses are
constructible for a string body, leaf bodies survive the final `trim()`
intact, boundaries are safe, and no boundary marker collides with the
enclosed content. -/
def wfT : RTree → Bool
  | .leaf st bd => statusOkB st && (jsTrim (bd ++ crlf) == bd)
  | .node b cs =>
    boundaryOk b && cleanB (endMark b) (joinParts b cs ++ crlf)
      && chunksOkF b cs && wfF cs
/-- Well-formedness of every tree of a forest. -/
def wfF : RForest → Bool
  | .nil => true
  | .cons t ts => wfT t && wfF ts
end

/-- A depth-three example forest: a leaf, then an envelope containing an
envelope containing a leaf, then another leaf. -/
def c5ExForest : RForest :=
  .cons (.leaf 200 (strL "x"))
    (.cons (.node (strL "inner")
      (.cons (.node (strL "deep") (.cons (.leaf 201 (strL "y")) .nil))
        (.cons (.leaf 202 (strL "z")) .nil)))
      .nil)

/-- The per-operation response data of a synthetic batch response. -/
structure RespData where
  status : Nat
  body : Str

/-- The leaf run of a changeset's responses, one per member operation. -/
def leafRun (rf : Nat → RespData) : Nat → List Req → RForest
  | _, [] => .nil
  | k, _ :: rest => .cons (.leaf (rf k).status (rf k).body) (leafRun rf (k + 1) rest)

/-- The synthetic response forest mirroring an envelope: a leaf for each lone
operation, a nested envelope of leaves for each changeset; `rf i` is the
response of the i-th operation in the caller's order and `cbf j` the
boundary of the j-th changeset. -/
def respForest (rf : Nat → RespData) (cbf : Nat → Str) :
    List BatchOp → Nat → Nat → RForest
  | [], _, _ => .nil
  | .single _ :: rest, k, j =>
    .cons (.leaf (rf k).status (rf k).body) (respForest rf cbf rest (k + 1) j)
  | .changeset rs :: rest, k, j =>
    .cons (.node (cbf j) (leafRun rf k rs)) (respForest rf cbf rest (k + rs.length) (j + 1))

/-- Concrete response data for the C2 witness. -/
def c2ExResp (i : Nat) : RespData := { status := 200 + i, body := strL "ok" }

/-- Example operation: a POST request carrying an unread body stream. -/
def exPostBody : Req :=
  { method := strL "POST", url := strL "/p", headers := [],
    body := some (strL "payload"), bodyUsed := false }

/-- Modelled from the spec: the mutable state of an Identity Token Manager
instance (the `ClarisId` class, whose source file is not under `src/`; only
its test file is).  `pending` is the shared pending-acquisition handle (the
tests call it `idTokenPromise`), `authCalls` counts invocations of the
identity-provider authenticate capability, and `session` is the cached
session's identity token when one is cached. -/
structure MgrState where
  pending : Bool
  authCalls : Nat
  session : Option Str
deriving DecidableEq

/-- Modelled from the spec: one caller invoking get authorization header.
If a pending acquisition handle exists the caller awaits that same handle
(no new acquisition); if a session is cached it is returned with no network
call; otherwise the caller creates the handle and the single underlying
acquisition sequence invokes the identity-provider authenticate capability. -/
def callStart (s : MgrState) : MgrState :=
  if s.pending then s
  else match s.session with
    | some _ => s
    | none => { s with pending := true, authCalls := s.authCalls + 1 }

/-- Modelled from the spec: the underlying acquisition settles.  The handle
is cleared regardless of success or failure; on success the resulting
session is stored. -/
def settle (ok : Bool) (tok : Str) (s : MgrState) : MgrState :=
  { s with pending := false, session := if ok then some tok else s.session }

/-- N callers arriving (in some serialization) before the acquisition
settles. -/
def callsN : Nat → MgrState → MgrState
  | 0, s => s
  | n + 1, s => callsN n (callStart s)

/-- Modelled from the spec: the session bundle owned by the Identity Token
Manager — access token, identity token, refresh token (the `ClarisId`
source file is not under `src/`). -/
structure Session where
  accessToken : Str
  idToken : Str
  refreshToken : Str

/-- Modelled from the spec: the authorization header value a successful get
authorization header call returns — the literal string `FMID ` followed by
the current session's identity token (scheme fixed). -/
def getAuthorizationHeader (s : Session) : Str := strL "FMID " ++ s.idToken

/-- Bridge between the executable `isPrefixOf` and the prefix relation. -/
theorem isPrefixOf_iff {l₁ l₂ : Str} : l₁.isPrefixOf l₂ = true ↔ l₁ <+: l₂ :=
  List.isPrefixOf_iff_prefix

/-- Searching with `findSub` for the empty pattern returns 0, as in JavaScript. -/
theorem findSub_nil_pat (s : Str) : findSub s [] = some 0 := by
  cases s <;> simp [findSub, List.isPrefixOf]

/-- A hit reported by `findSub` really is a match at that position. -/
theorem findSub_some_matches {s pat : Str} {i : Nat} (h : findSub s pat = some i) :
    pat <+: s.drop i := by
  induction s generalizing i with
  | nil =>
    unfold findSub at h
    split at h
    · cases h
      rw [List.drop_nil]
      exact isPrefixOf_iff.mp ‹_›
    · cases h
  | cons c rest ih =>
    unfold findSub at h
    split at h
    · cases h
      simpa using isPrefixOf_iff.mp ‹_›
    · cases hr : findSub rest pat with
      | none => rw [hr] at h; cases h
      | some j =>
        rw [hr] at h
        simp only [Option.map_some'] at h
        cases h
        simpa using ih hr

/-- A hit reported by `findSub` fits inside the searched string. -/
theorem findSub_some_le {s pat : Str} {i : Nat} (h : findSub s pat = some i) :
    i + pat.length ≤ s.length := by
  induction s generalizing i with
  | nil =>
    unfold findSub at h
    split at h
    · cases h
      have : pat <+: ([] : Str) := isPrefixOf_iff.mp ‹_›
      simpa using this.length_le
    · cases h
  | cons c rest ih =>
    unfold findSub at h
    split at h
    · cases h
      have : pat <+: c :: rest := isPrefixOf_iff.mp ‹_›
      simpa using this.length_le
    · cases hr : findSub rest pat with
      | none => rw [hr] at h; cases h
      | some j =>
        rw [hr] at h
        simp only [Option.map_some'] at h
        cases h
        have := ih hr
        simp only [List.length_cons]
        omega

/-- The search `findSub` returns `none` exactly when the pattern matches nowhere. -/
theorem findSub_none_iff {s pat : Str} :
    findSub s pat = none ↔ ∀ i, ¬ pat <+: s.drop i := by
  induction s with
  | nil =>
    unfold findSub
    constructor
    · intro h i hp
      split at h
      · cases h
      · rw [List.drop_nil] at hp
        exact ‹¬ _› (isPrefixOf_iff.mpr hp)
    · intro h
      split
      · have hp := isPrefixOf_iff.mp ‹_›
        have h0 := h 0
        rw [List.drop_nil] at h0
        exact absurd hp h0
      · rfl
  | cons c rest ih =>
    unfold findSub
    constructor
    · intro h i hp
      split at h
      · cases h
      · cases i with
        | zero => exact ‹¬ _› (isPrefixOf_iff.mpr (by simpa using hp))
        | succ j =>
          have : findSub rest pat = none := by
            cases hr : findSub rest pat
            · rfl
            · rw [hr] at h; cases h
          exact (ih.mp this) j (by simpa using hp)
    · intro h
      split
      · exact absurd (isPrefixOf_iff.mp ‹_›) (by simpa using h 0)
      · rw [ih.mpr fun j hp => (h (j + 1)) (by simpa using hp)]
        rfl

/-- If the pattern does not occur in an extension, it does not occur in the
original string. -/
theorem findSub_none_of_append {x y pat : Str} (h : findSub (x ++ y) pat = none) :
    findSub x pat = none := by
  rw [findSub_none_iff] at h ⊢
  intro i hp
  rcases le_or_lt i x.length with hle | hlt
  · exact h i (by
      rw [List.drop_append_of_le_length hle]
      exact hp.trans (List.prefix_append _ _))
  · have hx : x.drop i = [] := List.drop_eq_nil_of_le (by omega)
    rw [hx] at hp
    have : pat = [] := List.prefix_nil.mp hp
    subst this
    exact h 0 List.nil_prefix

/-- A pattern containing a character absent from the string never occurs. -/
theorem findSub_none_of_not_mem {s pat : Str} (c : Char) (hc : c ∈ pat) (hs : c ∉ s) :
    findSub s pat = none := by
  rw [findSub_none_iff]
  intro i hp
  exact hs (((List.drop_sublist i s).subset) (hp.sublist.subset hc))

/-- A pattern longer than the string never occurs. -/
theorem findSub_none_of_short {s pat : Str} (h : s.length < pat.length) :
    findSub s pat = none := by
  rw [findSub_none_iff]
  intro i hp
  have := hp.length_le
  simp only [List.length_drop] at this
  omega

/-- A pattern with more occurrences of some character than the string never
occurs. -/
theorem findSub_none_of_count_lt {s pat : Str} (c : Char)
    (h : s.count c < pat.count c) : findSub s pat = none := by
  rw [findSub_none_iff]
  intro i hp
  have h1 : pat.count c ≤ (s.drop i).count c := hp.sublist.count_le c
  have h2 : (s.drop i).count c ≤ s.count c := (List.drop_sublist i s).count_le c
  omega

/-- Junction lemma: when the pattern does not occur inside `a` or overlapping
its right end, the leftmost occurrence in `a ++ pat ++ r` is exactly at the
junction. -/
theorem findSub_append_self {a pat r : Str} (hpat : pat ≠ [])
    (h : findSub (a ++ pat.dropLast) pat = none) :
    findSub (a ++ pat ++ r) pat = some a.length := by
  obtain ⟨q, y, rfl⟩ : ∃ q y, pat = q ++ [y] := by
    rcases List.eq_nil_or_concat pat with hnil | ⟨q, y, hqy⟩
    · exact absurd hnil hpat
    · exact ⟨q, y, by simpa [List.concat_eq_append] using hqy⟩
  rw [List.dropLast_concat] at h
  induction a with
  | nil =>
    have hp : (q ++ [y]).isPrefixOf (q ++ [y] ++ r) = true :=
      isPrefixOf_iff.mpr (List.prefix_append (q ++ [y]) r)
    simp only [List.nil_append, List.length_nil]
    cases hqr : q ++ [y] ++ r with
    | nil => simp at hqr
    | cons z zs =>
      rw [hqr] at hp
      unfold findSub
      rw [← hqr]
      simp [hp]
  | cons x a ih =>
    have hrest : findSub (a ++ q) (q ++ [y]) = none := by
      rw [findSub_none_iff] at h ⊢
      intro i hp
      exact h (i + 1) (by simpa using hp)
    have h0 : (q ++ [y]).isPrefixOf (x :: (a ++ (q ++ [y]) ++ r)) = false := by
      cases hc : (q ++ [y]).isPrefixOf (x :: (a ++ (q ++ [y]) ++ r)) with
      | false => rfl
      | true =>
        exfalso
        have hp : q ++ [y] <+: (x :: a) ++ (q ++ [y]) ++ r := by
          simpa using isPrefixOf_iff.mp hc
        have hp2 : (x :: a) ++ q <+: (x :: a) ++ (q ++ [y]) ++ r := by
          have heq : (x :: a) ++ (q ++ [y]) ++ r = ((x :: a) ++ q) ++ ([y] ++ r) := by
            simp
          rw [heq]
          exact List.prefix_append _ _
        have hlen : (q ++ [y]).length ≤ ((x :: a) ++ q).length := by
          simp only [List.length_append, List.length_cons, List.length_nil]
          omega
        have hfin : q ++ [y] <+: (x :: a) ++ q :=
          List.prefix_of_prefix_length_le hp hp2 hlen
        have h00 := findSub_none_iff.mp h 0
        simp only [List.drop_zero, List.cons_append] at h00
        exact h00 (by simpa using hfin)
    have hstep := ih hrest
    simp only [List.cons_append, List.length_cons]
    unfold findSub
    simp only [List.cons_append] at h0
    rw [h0]
    simp only [Bool.false_eq_true, if_false, hstep, Option.map_some']

/-- The result of `splitSubF` does not depend on the fuel once the fuel
exceeds the length of the string. -/
theorem splitSubF_congr : ∀ f g : Nat, ∀ sep s : Str, s.length < f → s.length < g →
    splitSubF f sep s = splitSubF g sep s := by
  intro f
  induction f with
  | zero => intro g sep s hf; omega
  | succ f ihf =>
    intro g sep s hf hg
    cases g with
    | zero => omega
    | succ g =>
      unfold splitSubF
      split
      · rfl
      · cases hfs : findSub s sep with
        | none => rfl
        | some i =>
          have hle := findSub_some_le hfs
          have hsep : sep.length ≠ 0 := by
            simpa [List.length_eq_zero] using ‹¬ sep = []›
          have hlen : (s.drop (i + sep.length)).length < f := by
            rw [List.length_drop]
            omega
          have hlen2 : (s.drop (i + sep.length)).length < g := by
            rw [List.length_drop]
            omega
          simp only [ihf g sep (s.drop (i + sep.length)) hlen hlen2]

/-- One-step unfolding of `splitSub`. -/
theorem splitSub_eq (sep s : Str) :
    splitSub sep s = if sep = [] then s.map (fun c => [c])
      else match findSub s sep with
        | none => [s]
        | some i => s.take i :: splitSub sep (s.drop (i + sep.length)) := by
  conv_lhs => unfold splitSub splitSubF
  split
  · rfl
  · cases hfs : findSub s sep with
    | none => rfl
    | some i =>
      have hle := findSub_some_le hfs
      have hsep : sep.length ≠ 0 := by
        simpa [List.length_eq_zero] using ‹¬ sep = []›
      have h1 : (s.drop (i + sep.length)).length < s.length := by
        rw [List.length_drop]
        omega
      simp only [splitSub,
        splitSubF_congr s.length ((s.drop (i + sep.length)).length + 1) sep
          (s.drop (i + sep.length)) h1 (by omega)]

/-- When the separator does not occur, `splitSub` returns the whole string. -/
theorem splitSub_of_none {sep s : Str} (h : findSub s sep = none) :
    splitSub sep s = [s] := by
  have hsep : sep ≠ [] := by
    intro hnil
    rw [hnil, findSub_nil_pat] at h
    cases h
  rw [splitSub_eq]
  simp [hsep, h]

/-- Junction lemma for `splitSub`: a clean chunk followed by the separator is
cut off exactly at the separator. -/
theorem splitSub_append_self {sep a r : Str} (hsep : sep ≠ [])
    (h : findSub (a ++ sep.dropLast) sep = none) :
    splitSub sep (a ++ sep ++ r) = a :: splitSub sep r := by
  rw [splitSub_eq]
  simp only [hsep, if_false]
  rw [findSub_append_self hsep h]
  have ht : (a ++ sep ++ r).take a.length = a := by
    rw [List.append_assoc, List.take_left]
  have hd : (a ++ sep ++ r).drop (a.length + sep.length) = r := by
    rw [show a.length + sep.length = (a ++ sep).length by simp]
    exact List.drop_left (a ++ sep) r
  simp only [ht, hd]

/-- A nonempty pattern does not occur in the empty string. -/
theorem findSub_nil {sep : Str} (hsep : sep ≠ []) : findSub [] sep = none := by
  have hp : sep.isPrefixOf ([] : Str) = false := by
    cases hc : sep.isPrefixOf ([] : Str) with
    | false => rfl
    | true => exact absurd (List.prefix_nil.mp (isPrefixOf_iff.mp hc)) hsep
  unfold findSub
  simp [hp]

/-- Each chunk of a split, counted with one extra for its separator, fits in
the original string (plus one for the final chunk). -/
theorem splitSub_weight {sep : Str} (hsep : sep ≠ []) : ∀ n : Nat, ∀ s : Str,
    s.length ≤ n → ((splitSub sep s).map (fun c => c.length + 1)).sum ≤ s.length + 1 := by
  intro n
  induction n with
  | zero =>
    intro s hs
    have hnil : s = [] := List.length_eq_zero.mp (by omega)
    subst hnil
    rw [splitSub_of_none (findSub_nil hsep)]
    simp
  | succ n ihn =>
    intro s hs
    rw [splitSub_eq]
    simp only [hsep, if_false]
    cases hfs : findSub s sep with
    | none => simp
    | some i =>
      have hle := findSub_some_le hfs
      have hseplen : 1 ≤ sep.length := by
        cases sep with
        | nil => exact absurd rfl hsep
        | cons _ _ => simp
      have hrec := ihn (s.drop (i + sep.length)) (by
        rw [List.length_drop]
        omega)
      simp only [List.map_cons, List.sum_cons, List.length_take]
      rw [List.length_drop] at hrec
      omega

/-- The body of a successfully split part is no longer than the part. -/
theorem splitPart_ok_body_le {p : Str} {pr : Headers × Str} (h : splitPart p = .ok pr) :
    pr.2.length ≤ p.length := by
  unfold splitPart at h
  split at h
  · cases h
    simp only [List.length_drop]
    omega
  · split at h
    · split at h
      · cases h
      · cases h
        simp only [List.length_drop]
        omega
    · split at h
      · cases h
      · cases h
        simp only [List.length_drop]
        omega

/-- The trimmed body is no longer than the body. -/
theorem trimAtEnd_le (body b : Str) : (trimAtEnd body b).length ≤ body.length := by
  unfold trimAtEnd
  split
  · simp only [List.length_take]
    omega
  · exact le_rfl

/-- The part opener is nonempty. -/
theorem sepFor_ne_nil (b : Str) : sepFor b ≠ [] := by
  simp [sepFor, strL]

/-- With a nonempty separator, `splitSub` never returns the empty list. -/
theorem splitSub_ne_nil {sep : Str} (s : Str) (hsep : sep ≠ []) : splitSub sep s ≠ [] := by
  rw [splitSub_eq]
  simp only [hsep, if_false]
  split <;> simp

/-- The weight of the raw parts of a body is bounded by the body length. -/
theorem listWeight_partsOf_le (body b : Str) : listWeight (partsOf body b) ≤ body.length := by
  have hsep := sepFor_ne_nil b
  have htrim := trimAtEnd_le body b
  have hw := splitSub_weight hsep (trimAtEnd body b).length (trimAtEnd body b) le_rfl
  unfold listWeight partsOf
  cases hL : splitSub (sepFor b) (trimAtEnd body b) with
  | nil => exact absurd hL (splitSub_ne_nil _ hsep)
  | cons c0 rest =>
    rw [hL] at hw
    simp only [List.map_cons, List.sum_cons] at hw
    simp only [List.drop_succ_cons, List.drop_zero]
    omega

/-- Splitting every part successfully bounds the job weight by the raw part
weight. -/
theorem splitAll_weight : ∀ ps : List Str, ∀ jobs : List (Headers × Str),
    splitAll ps = .ok jobs → partsWeight jobs ≤ listWeight ps := by
  intro ps
  induction ps with
  | nil =>
    intro jobs h
    cases h
    exact le_rfl
  | cons p rest ih =>
    intro jobs h
    unfold splitAll at h
    cases hsp : splitPart p with
    | error e => rw [hsp] at h; cases h
    | ok j =>
      rw [hsp] at h
      dsimp only at h
      cases hsa : splitAll rest with
      | error e => rw [hsa] at h; cases h
      | ok js =>
        rw [hsa] at h
        cases h
        have hb := splitPart_ok_body_le hsp
        have hr := ih js hsa
        simp only [partsWeight, listWeight, List.map_cons, List.sum_cons] at hr ⊢
        omega

/-- Nested jobs weigh no more than the nested body. -/
theorem splitAll_partsOf_le {pbody b : Str} {jobs : List (Headers × Str)}
    (h : splitAll (partsOf pbody b) = .ok jobs) : partsWeight jobs ≤ pbody.length :=
  le_trans (splitAll_weight _ jobs h) (listWeight_partsOf_le pbody b)

/-- Weight of a job list head plus tail. -/
theorem partsWeight_cons (phs : Headers) (pbody : Str) (rest : List (Headers × Str)) :
    partsWeight ((phs, pbody) :: rest) = pbody.length + 1 + partsWeight rest := by
  simp [partsWeight]

/-- The fuelled loop does not depend on the fuel once it exceeds twice the
weight of the job list. -/
theorem parsePartsF_congr : ∀ f g : Nat, ∀ jobs : List (Headers × Str),
    2 * partsWeight jobs < f → 2 * partsWeight jobs < g →
    parsePartsF f jobs = parsePartsF g jobs := by
  intro f
  induction f with
  | zero => intro g jobs hf; omega
  | succ f ihf =>
    intro g jobs hf hg
    cases g with
    | zero => omega
    | succ g =>
      cases jobs with
      | nil => rfl
      | cons j rest =>
        obtain ⟨phs, pbody⟩ := j
        rw [partsWeight_cons] at hf hg
        have hwr : 2 * partsWeight rest < f := by omega
        have hwr2 : 2 * partsWeight rest < g := by omega
        have hrest : parsePartsF f rest = parsePartsF g rest := ihf g rest hwr hwr2
        unfold parsePartsF
        cases hct : hget phs ctKey with
        | none => rfl
        | some ct =>
          dsimp only
          by_cases hempty : ct = []
          · simp only [if_pos hempty]
          · simp only [if_neg hempty]
            by_cases hhttp : ct = strL "application/http"
            · simp only [if_pos hhttp]
              cases hph : parseHttpResponse pbody with
              | error e => rfl
              | ok r =>
                dsimp only
                simp only [hrest]
            · simp only [if_neg hhttp]
              by_cases hmm : (strL "multipart/mixed").isPrefixOf ct = true
              · simp only [if_pos hmm]
                cases hgb : getBoundary phs with
                | error e => rfl
                | ok b =>
                  dsimp only
                  cases hsa : splitAll (partsOf pbody b) with
                  | error e => rfl
                  | ok jbs =>
                    dsimp only
                    have hb := splitAll_partsOf_le hsa
                    have hnested : parsePartsF f jbs = parsePartsF g jbs :=
                      ihf g jbs (by omega) (by omega)
                    simp only [hnested, hrest]
              · simp only [if_neg hmm]

/-- The empty job list parses to no responses. -/
theorem parseParts_nil : parseParts [] = .ok [] := rfl

/-- One-step unfolding of `parseParts`. -/
theorem parseParts_cons (phs : Headers) (pbody : Str) (rest : List (Headers × Str)) :
    parseParts ((phs, pbody) :: rest)
      = match hget phs ctKey with
        | none => .error (.formatError msgPartNoCT)
        | some contentType =>
          if contentType = [] then .error (.formatError msgPartNoCT)
          else if contentType = strL "application/http" then
            match parseHttpResponse pbody with
            | .error e => .error e
            | .ok r =>
              match parseParts rest with
              | .error e => .error e
              | .ok rs => .ok (r :: rs)
          else if (strL "multipart/mixed").isPrefixOf contentType then
            match getBoundary phs with
            | .error e => .error e
            | .ok b =>
              match splitAll (partsOf pbody b) with
              | .error e => .error e
              | .ok jobs =>
                match parseParts jobs with
                | .error e => .error e
                | .ok inner =>
                  match parseParts rest with
                  | .error e => .error e
                  | .ok rs => .ok (inner ++ rs)
          else .error (.formatError (msgUnknownCT ++ contentType)) := by
  conv_lhs => unfold parseParts parsePartsF
  rw [partsWeight_cons]
  have hrest : parsePartsF (2 * (pbody.length + 1 + partsWeight rest)) rest
      = parseParts rest := by
    unfold parseParts
    apply parsePartsF_congr <;> omega
  cases hct : hget phs ctKey with
  | none => rfl
  | some ct =>
    dsimp only
    by_cases hempty : ct = []
    · simp only [if_pos hempty]
    · simp only [if_neg hempty]
      by_cases hhttp : ct = strL "application/http"
      · simp only [if_pos hhttp]
        cases hph : parseHttpResponse pbody with
        | error e => rfl
        | ok r =>
          dsimp only
          simp only [hrest]
      · simp only [if_neg hhttp]
        by_cases hmm : (strL "multipart/mixed").isPrefixOf ct = true
        · simp only [if_pos hmm]
          cases hgb : getBoundary phs with
          | error e => rfl
          | ok b =>
            dsimp only
            cases hsa : splitAll (partsOf pbody b) with
            | error e => rfl
            | ok jbs =>
              dsimp only
              have hjw := splitAll_partsOf_le hsa
              have hnested : parsePartsF (2 * (pbody.length + 1 + partsWeight rest)) jbs
                  = parseParts jbs := by
                unfold parseParts
                apply parsePartsF_congr <;> omega
              simp only [hnested, hrest]
        · simp only [if_neg hmm]

/-- Splitting the adjacency check on a two-element head. -/
theorem noAdjCS_cons_cons {a b : BatchOp} {t : List BatchOp}
    (h : noAdjCS (a :: b :: t) = true) :
    (!(isCS a && isCS b)) = true ∧ noAdjCS (b :: t) = true := by
  unfold noAdjCS at h
  simp only [Bool.and_eq_true] at h
  exact h

/-- Appending a non-changeset element preserves adjacency-freedom. -/
theorem noAdjCS_append_single {l : List BatchOp} {x : BatchOp}
    (hl : noAdjCS l = true) (hx : isCS x = false) : noAdjCS (l ++ [x]) = true := by
  induction l with
  | nil => simp [noAdjCS]
  | cons a t ih =>
    cases t with
    | nil => simp [noAdjCS, hx]
    | cons b t2 =>
      obtain ⟨h1, h2⟩ := noAdjCS_cons_cons hl
      have h3 := ih h2
      simp only [List.cons_append] at h3 ⊢
      unfold noAdjCS
      rw [h1]
      simpa using h3

/-- The predicate `endsOk` after appending an element reflects that element. -/
theorem endsOk_append_single (l : List BatchOp) (x : BatchOp) :
    endsOk (l ++ [x]) = !isCS x := by
  induction l with
  | nil => rfl
  | cons a t ih =>
    cases t with
    | nil => rfl
    | cons b t2 => simpa [endsOk] using ih

/-- Appending anything after a non-changeset-ending list preserves
adjacency-freedom. -/
theorem noAdjCS_append_any {l : List BatchOp} {x : BatchOp}
    (hl : noAdjCS l = true) (he : endsOk l = true) : noAdjCS (l ++ [x]) = true := by
  induction l with
  | nil => simp [noAdjCS]
  | cons a t ih =>
    cases t with
    | nil =>
      have hx : isCS a = false := by simpa [endsOk] using he
      simp [noAdjCS, hx]
    | cons b t2 =>
      obtain ⟨h1, h2⟩ := noAdjCS_cons_cons hl
      have he2 : endsOk (b :: t2) = true := by simpa [endsOk] using he
      have h3 := ih h2 he2
      simp only [List.cons_append] at h3 ⊢
      unfold noAdjCS
      rw [h1]
      simpa using h3

/-- The flattening `flattenOps` distributes over append. -/
theorem flattenOps_append (a b : List BatchOp) :
    flattenOps (a ++ b) = flattenOps a ++ flattenOps b := by
  simp [flattenOps]

/-- The result, items and order of one `addRequest` step. -/
theorem addRequest_step (acc : List BatchOp × Option (List Req)) (r : Req)
    (h : buildInv acc) :
    buildInv (addRequest acc r) ∧
    flattenOps ((addRequest acc r).1 ++ closeChangeset (addRequest acc r).2)
      = flattenOps (acc.1 ++ closeChangeset acc.2) ++ [r] := by
  obtain ⟨h1, h2, h3, h4⟩ := h
  have hcloseWf : ∀ item ∈ closeChangeset acc.2, wfItem item := by
    intro item hitem
    cases hc : acc.2 with
    | none => rw [hc] at hitem; cases hitem
    | some rs =>
      rw [hc] at hitem
      simp only [closeChangeset, List.mem_singleton] at hitem
      subst hitem
      exact h2 rs hc
  have hcloseAdj : noAdjCS (acc.1 ++ closeChangeset acc.2) = true := by
    cases hc : acc.2 with
    | none => simpa [closeChangeset] using h3
    | some rs => exact noAdjCS_append_any h3 h4
  unfold addRequest
  split
  · -- GET: close the changeset and push a single
    refine ⟨⟨?_, ?_, ?_, ?_⟩, ?_⟩
    · intro item hitem
      simp only [List.mem_append, List.mem_singleton] at hitem
      rcases hitem with (hin | hin) | hin
      · exact h1 item hin
      · exact hcloseWf item hin
      · subst hin
        exact ‹r.method = strL "GET"›
    · intro rs hrs
      cases hrs
    · exact noAdjCS_append_single hcloseAdj (by simp [isCS])
    · dsimp only
      rw [endsOk_append_single]
      simp [isCS]
    · dsimp only
      simp only [closeChangeset, List.append_nil]
      rw [flattenOps_append]
      simp [flattenOps]
  · -- non-GET: open or extend the changeset
    cases hc : acc.2 with
    | none =>
      dsimp only
      refine ⟨⟨h1, ?_, h3, h4⟩, ?_⟩
      · intro rs hrs
        cases hrs
        refine ⟨by simp, ?_⟩
        intro x hx
        simp only [List.mem_singleton] at hx
        subst hx
        assumption
      · simp only [closeChangeset, List.append_nil]
        rw [flattenOps_append]
        simp [flattenOps]
    | some rs =>
      dsimp only
      refine ⟨⟨h1, ?_, h3, h4⟩, ?_⟩
      · intro rs2 hrs2
        cases hrs2
        obtain ⟨hne, hmem⟩ := h2 rs hc
        refine ⟨by simp, ?_⟩
        intro x hx
        rcases List.mem_append.mp hx with hx | hx
        · exact hmem x hx
        · simp only [List.mem_singleton] at hx
          subst hx
          assumption
      · simp only [closeChangeset]
        rw [flattenOps_append, flattenOps_append]
        simp [flattenOps]

/-- The fold of `addRequest` preserves the invariant and appends the
operations in order. -/
theorem buildAux_props : ∀ ops : List Req, ∀ acc, buildInv acc →
    buildInv (ops.foldl addRequest acc) ∧
    flattenOps ((ops.foldl addRequest acc).1 ++ closeChangeset (ops.foldl addRequest acc).2)
      = flattenOps (acc.1 ++ closeChangeset acc.2) ++ ops := by
  intro ops
  induction ops with
  | nil =>
    intro acc h
    exact ⟨h, by simp⟩
  | cons r rest ih =>
    intro acc h
    have hstep := addRequest_step acc r h
    have hrec := ih (addRequest acc r) hstep.1
    refine ⟨by simpa using hrec.1, ?_⟩
    simp only [List.foldl_cons]
    rw [hrec.2, hstep.2]
    simp

/-- The envelope built by the constructor: flattening recovers the original
operation list, every element is well formed, and no two changesets are
adjacent. -/
theorem buildOperations_props (ops : List Req) :
    flattenOps (buildOperations ops) = ops ∧
    (∀ item ∈ buildOperations ops, wfItem item) ∧
    noAdjCS (buildOperations ops) = true := by
  have hInv0 : buildInv ([], none) := by
    refine ⟨by simp, ?_, rfl, rfl⟩
    intro rs hrs
    cases hrs
  have h := buildAux_props ops ([], none) hInv0
  obtain ⟨⟨h1, h2, h3, h4⟩, hflat⟩ := h
  have hdef : buildOperations ops
      = (ops.foldl addRequest ([], none)).1
        ++ closeChangeset (ops.foldl addRequest ([], none)).2 := rfl
  refine ⟨?_, ?_, ?_⟩
  · rw [hdef]
    simpa [flattenOps] using hflat
  · intro item hitem
    rw [hdef] at hitem
    rcases List.mem_append.mp hitem with hin | hin
    · exact h1 item hin
    · cases hc : (ops.foldl addRequest ([], none)).2 with
      | none => rw [hc] at hin; cases hin
      | some rs =>
        rw [hc] at hin
        simp only [closeChangeset, List.mem_singleton] at hin
        subst hin
        exact h2 rs hc
  · rw [hdef]
    cases hc : (ops.foldl addRequest ([], none)).2 with
    | none => simpa [closeChangeset] using h3
    | some rs =>
      simp only [closeChangeset]
      exact noAdjCS_append_any h3 h4

/-- Claim C1: the envelope built by the `BatchRequest` constructor preserves
the caller-supplied order (flattening the envelope returns the original
operation list) and brackets exactly the maximal consecutive runs of non-GET
operations into changesets: every GET is a singleton element, every changeset
is a nonempty run of non-GET operations, and no two changesets are adjacent
(so a GET resets any open changeset and runs are maximal).  In particular
`[GET, POST, POST, GET, PATCH]` yields
`[GET, changeset[POST, POST], GET, changeset[PATCH]]`. -/
theorem c1_batch_grouping :
    (∀ ops : List Req,
      flattenOps (buildOperations ops) = ops ∧
      (∀ item ∈ buildOperations ops, wfItem item) ∧
      noAdjCS (buildOperations ops) = true) ∧
    buildOperations [exGet1, exPost1, exPost2, exGet2, exPatch1]
      = [.single exGet1, .changeset [exPost1, exPost2], .single exGet2,
         .changeset [exPatch1]] :=
  ⟨buildOperations_props, by decide⟩

/-- Witness for C1 at a concrete input: the changeset element of the example
envelope is a nonempty all-non-GET run. -/
theorem c1_batch_grouping_witness : wfItem (BatchOp.changeset [exPost1, exPost2]) :=
  (c1_batch_grouping.1 [exGet1, exPost1, exPost2, exGet2, exPatch1]).2.1
    (BatchOp.changeset [exPost1, exPost2]) (by decide)

/-- The serializer `formatRequestHeaders` emits exactly the non-Authorization headers, each
rendered as a `name: value` line, in order. -/
theorem formatRequestHeaders_eq (hs : Headers) :
    formatRequestHeaders hs
      = (hs.filter (fun kv => !(lowerStr kv.1 == strL "authorization"))).map
          (fun kv => kv.1 ++ strL ": " ++ kv.2) := by
  induction hs with
  | nil => rfl
  | cons kv rest ih =>
    obtain ⟨k, v⟩ := kv
    unfold formatRequestHeaders
    by_cases hk : lowerStr k = strL "authorization"
    · simp [List.filter_cons, hk, ih]
    · simp [List.filter_cons, hk, ih]

/-- The header lines of a serialized part inside the full part text. -/
theorem formatRequest_lines (r : Req) :
    (formatRequest r).1
      = List.intercalate crlf
          ([strL "Content-Type: application/http",
            strL "Content-Transfer-Encoding: binary",
            [],
            r.method ++ strL " " ++ r.url ++ strL " HTTP/1.1"]
           ++ formatRequestHeaders r.headers
           ++ [[], r.body.getD []]) := by
  unfold formatRequest
  cases r.body <;> rfl

/-- Claim C3: the MIME part serialized for an operation contains all of the
operation's headers verbatim except that any header named Authorization
(case-insensitively) is omitted; the batch authorization header is applied
exactly once, at the envelope level of the outer request. -/
theorem c3_authorization_stripping :
    (∀ hs : Headers,
      formatRequestHeaders hs
        = (hs.filter (fun kv => !(lowerStr kv.1 == strL "authorization"))).map
            (fun kv => kv.1 ++ strL ": " ++ kv.2)) ∧
    (∀ r : Req,
      (formatRequest r).1
        = List.intercalate crlf
            ([strL "Content-Type: application/http",
              strL "Content-Transfer-Encoding: binary",
              [],
              r.method ++ strL " " ++ r.url ++ strL " HTTP/1.1"]
             ++ formatRequestHeaders r.headers
             ++ [[], r.body.getD []])) ∧
    (∀ auth b : Str,
      (toRequestHeaders auth b).countP
          (fun kv => lowerStr kv.1 == strL "authorization") = 1 ∧
      hget (toRequestHeaders auth b) (strL "Authorization") = some auth) := by
  refine ⟨formatRequestHeaders_eq, formatRequest_lines, ?_⟩
  intro auth b
  have e1 : (lowerStr (strL "Authorization") == strL "authorization") = true := by decide
  have e2 : (lowerStr (strL "OData-Version") == strL "authorization") = false := by decide
  have e3 : (lowerStr (strL "Content-Type") == strL "authorization") = false := by decide
  have f1 : (lowerStr (strL "Authorization") == lowerStr (strL "Authorization")) = true := by
    decide
  have f2 : (lowerStr (strL "OData-Version") == lowerStr (strL "Authorization")) = false := by
    decide
  have f3 : (lowerStr (strL "Content-Type") == lowerStr (strL "Authorization")) = false := by
    decide
  constructor
  · simp [toRequestHeaders, List.countP_cons, e1, e2, e3]
  · unfold hget toRequestHeaders
    simp only [List.filter_cons, f1, f2, f3]
    simp [List.intercalate]

/-- The append `Headers.prototype.append` fails only with `TypeError`. -/
theorem hAppend_error_shape {hs : Headers} {k v : Str} {e : JsErr}
    (h : hAppend hs k v = .error e) : e = JsErr.typeError := by
  unfold hAppend at h
  split at h
  · cases h
  · cases h
    rfl

/-- The header-appending loop fails only with `TypeError`. -/
theorem appendLines_error_shape : ∀ lines : List Str, ∀ hs : Headers, ∀ e : JsErr,
    appendLines hs lines = .error e → e = JsErr.typeError := by
  intro lines
  induction lines with
  | nil => intro hs e h; cases h
  | cons line rest ih =>
    intro hs e h
    unfold appendLines at h
    cases ha : hAppend hs (parseHeaderLine line).1 (parseHeaderLine line).2 with
    | error e2 =>
      rw [ha] at h
      cases h
      exact hAppend_error_shape ha
    | ok hs2 =>
      rw [ha] at h
      exact ih hs2 e h

/-- Header-block parsing fails only with `TypeError`. -/
theorem parseRawHeaders_error_shape {raw : Str} {e : JsErr}
    (h : parseRawHeaders raw = .error e) : e = JsErr.typeError :=
  appendLines_error_shape _ [] e h

/-- The splitter `splitPart` fails only with the `TypeError` of `Headers.append`. -/
theorem splitPart_error_shape {p : Str} {e : JsErr} (h : splitPart p = .error e) :
    e = JsErr.typeError := by
  unfold splitPart at h
  by_cases hpre : crlf.isPrefixOf p = true
  · rw [if_pos hpre] at h
    cases h
  · rw [if_neg hpre] at h
    cases hfs : findSub p crlf2 with
    | some i =>
      rw [hfs] at h
      dsimp only at h
      cases hph : parseRawHeaders (p.take i) with
      | error e2 =>
        rw [hph] at h
        cases h
        exact parseRawHeaders_error_shape hph
      | ok hs2 => rw [hph] at h; cases h
    | none =>
      rw [hfs] at h
      dsimp only at h
      cases hph : parseRawHeaders (p.take (p.length - 1)) with
      | error e2 =>
        rw [hph] at h
        cases h
        exact parseRawHeaders_error_shape hph
      | ok hs2 => rw [hph] at h; cases h

/-- The eager part split fails only with `TypeError`. -/
theorem splitAll_error_shape : ∀ ps : List Str, ∀ e : JsErr,
    splitAll ps = .error e → e = JsErr.typeError := by
  intro ps
  induction ps with
  | nil => intro e h; cases h
  | cons p rest ih =>
    intro e h
    unfold splitAll at h
    cases hsp : splitPart p with
    | error e2 =>
      rw [hsp] at h
      cases h
      exact splitPart_error_shape hsp
    | ok j =>
      rw [hsp] at h
      dsimp only at h
      cases hsa : splitAll rest with
      | error e2 =>
        rw [hsa] at h
        cases h
        exact ih _ hsa
      | ok js => rw [hsa] at h; cases h

/-- The `Response` constructor fails only with `TypeError` or `RangeError`. -/
theorem mkResponse_error_shape {body : Str} {st : Option Int} {stext : Str}
    {hs : Headers} {e : JsErr} (h : mkResponse body st stext hs = .error e) :
    e = JsErr.typeError ∨ e = JsErr.rangeError := by
  unfold mkResponse at h
  split at h
  · split at h
    · split at h
      · cases h
        exact Or.inl rfl
      · cases h
    · cases h
      exact Or.inl rfl
  · cases h
    exact Or.inr rfl

/-- The parser `parseHttpResponse` fails only with `TypeError` or `RangeError`. -/
theorem parseHttpResponse_error_shape {raw : Str} {e : JsErr}
    (h : parseHttpResponse raw = .error e) :
    e = JsErr.typeError ∨ e = JsErr.rangeError := by
  unfold parseHttpResponse at h
  cases hf : findSub raw crlf with
  | some i =>
    rw [hf] at h
    dsimp only at h
    cases hsp : splitPart (raw.drop (i + 2)) with
    | error e2 =>
      rw [hsp] at h
      cases h
      exact Or.inl (splitPart_error_shape hsp)
    | ok hb =>
      rw [hsp] at h
      dsimp only at h
      exact mkResponse_error_shape h
  | none =>
    rw [hf] at h
    dsimp only at h
    cases hsp : splitPart (raw.drop 1) with
    | error e2 =>
      rw [hsp] at h
      cases h
      exact Or.inl (splitPart_error_shape hsp)
    | ok hb =>
      rw [hsp] at h
      dsimp only at h
      exact mkResponse_error_shape h

/-- Counterexample to claim C7 as stated: on the part
`HTTP/1.1 200 OK\r\n\r\n x` the constructed response body is `x`, not the
body segment ` x` with only trailing whitespace removed — the leading space
is removed as well, because the source calls `body.trim()`. -/
theorem c7_counterexample :
    parseHttpResponse (strL "HTTP/1.1 200 OK\r\n\r\n x")
      = .ok { status := 200, statusText := strL "OK", headers := [], body := strL "x" }
    ∧ strL "x" ≠ rtrimWs (strL " x") := by
  decide

/-- Decomposition of `parseHttpResponse` on an input with an explicit first
line: the status fields come from the first line, headers and body from
`splitPart` of the remainder (whose error propagates), and the `Response`
constructor runs on the body trimmed on both ends. -/
theorem parseHttpResponse_decomp (sl rest : Str) (hnl : '\n' ∉ sl) :
    parseHttpResponse (sl ++ crlf ++ rest)
      = match splitPart rest with
        | .error e => .error e
        | .ok hb =>
          mkResponse (jsTrim hb.2) (parseIntJs ((splitSub (strL " ") sl).getD 1 []))
            (List.intercalate (strL " ") ((splitSub (strL " ") sl).drop 2)) hb.1 := by
  have hclean : findSub (sl ++ crlf.dropLast) crlf = none := by
    apply findSub_none_of_not_mem '\n'
    · decide
    · intro hmem
      rcases List.mem_append.mp hmem with hin | hin
      · exact hnl hin
      · revert hin
        decide
  have hfind : findSub (sl ++ crlf ++ rest) crlf = some sl.length :=
    findSub_append_self (by decide) hclean
  unfold parseHttpResponse
  rw [hfind]
  have ht : (sl ++ crlf ++ rest).take sl.length = sl := by
    rw [List.append_assoc, List.take_left]
  have hd : (sl ++ crlf ++ rest).drop (sl.length + 2) = rest := by
    rw [show sl.length + 2 = (sl ++ crlf).length by simp [crlf, strL]]
    exact List.drop_left (sl ++ crlf) rest
  simp only [ht, hd]

/-- Claim C7 (amended): `parseHttpResponse` extracts the status code and text
from the first line, splits the remainder into headers and body via
`splitPart` at the first blank-line sequence (propagating its `TypeError`),
and constructs the web `Response` on the body segment trimmed on both ends
(`trim()`, not only the trailing end): `RangeError` when the converted
status falls outside 200-599, `TypeError` when the status text is not a
valid reason phrase or the status is a null-body status (the body argument
is always a string), and otherwise the response carrying the
both-ends-trimmed body. -/
theorem c7_parse_http_response (sl rest : Str) (hnl : '\n' ∉ sl) :
    (∀ e : JsErr, splitPart rest = .error e →
      parseHttpResponse (sl ++ crlf ++ rest) = .error e) ∧
    (∀ hs : Headers, ∀ bd : Str, splitPart rest = .ok (hs, bd) →
      (¬ (200 ≤ toU16 (parseIntJs ((splitSub (strL " ") sl).getD 1 []))
          ∧ toU16 (parseIntJs ((splitSub (strL " ") sl).getD 1 [])) ≤ 599) →
        parseHttpResponse (sl ++ crlf ++ rest) = .error JsErr.rangeError) ∧
      (200 ≤ toU16 (parseIntJs ((splitSub (strL " ") sl).getD 1 [])) →
        toU16 (parseIntJs ((splitSub (strL " ") sl).getD 1 [])) ≤ 599 →
        validReason (List.intercalate (strL " ") ((splitSub (strL " ") sl).drop 2)) = false →
        parseHttpResponse (sl ++ crlf ++ rest) = .error JsErr.typeError) ∧
      (200 ≤ toU16 (parseIntJs ((splitSub (strL " ") sl).getD 1 [])) →
        toU16 (parseIntJs ((splitSub (strL " ") sl).getD 1 [])) ≤ 599 →
        validReason (List.intercalate (strL " ") ((splitSub (strL " ") sl).drop 2)) = true →
        nullBodyStatus (toU16 (parseIntJs ((splitSub (strL " ") sl).getD 1 []))) = true →
        parseHttpResponse (sl ++ crlf ++ rest) = .error JsErr.typeError) ∧
      (200 ≤ toU16 (parseIntJs ((splitSub (strL " ") sl).getD 1 [])) →
        toU16 (parseIntJs ((splitSub (strL " ") sl).getD 1 [])) ≤ 599 →
        validReason (List.intercalate (strL " ") ((splitSub (strL " ") sl).drop 2)) = true →
        nullBodyStatus (toU16 (parseIntJs ((splitSub (strL " ") sl).getD 1 []))) = false →
        parseHttpResponse (sl ++ crlf ++ rest)
          = .ok { status := toU16 (parseIntJs ((splitSub (strL " ") sl).getD 1 []))
                  statusText := List.intercalate (strL " ") ((splitSub (strL " ") sl).drop 2)
                  headers := hs
                  body := jsTrim bd })) := by
  have hdec := parseHttpResponse_decomp sl rest hnl
  constructor
  · intro e hsp
    rw [hdec, hsp]
  · intro hs bd hsp
    rw [hsp] at hdec
    dsimp only at hdec
    refine ⟨?_, ?_, ?_, ?_⟩
    · intro hrange
      rw [hdec]
      unfold mkResponse
      rw [if_neg (by
        simp only [Bool.and_eq_true, decide_eq_true_eq]
        exact hrange)]
    · intro h1 h2 hvr
      rw [hdec]
      unfold mkResponse
      rw [if_pos (by
        simp only [Bool.and_eq_true, decide_eq_true_eq]
        exact ⟨h1, h2⟩), if_neg (by rw [hvr]; simp)]
    · intro h1 h2 hvr hnb
      rw [hdec]
      unfold mkResponse
      rw [if_pos (by
        simp only [Bool.and_eq_true, decide_eq_true_eq]
        exact ⟨h1, h2⟩), if_pos hvr, if_pos hnb]
    · intro h1 h2 hvr hnb
      rw [hdec]
      unfold mkResponse
      rw [if_pos (by
        simp only [Bool.and_eq_true, decide_eq_true_eq]
        exact ⟨h1, h2⟩), if_pos hvr, if_neg (by rw [hnb]; simp)]

/-- Witness for C7 at a concrete input hitting the success branch. -/
theorem c7_parse_http_response_witness :
    parseHttpResponse (strL "HTTP/1.1 404 Not Found" ++ crlf ++ strL "\r\nabc")
      = .ok { status := 404, statusText := strL "Not Found", headers := [],
              body := strL "abc" } := by
  have h := ((c7_parse_http_response (strL "HTTP/1.1 404 Not Found") (strL "\r\nabc")
      (by decide)).2 [] (strL "abc") (by decide)).2.2.2
      (by decide) (by decide) (by decide) (by decide)
  rw [h]
  decide

/-- Counterexample to claim C10 as stated: `splitPart` is not total.  On the
one-character input `x` the colonless header line parses to the empty header
name, `Headers.prototype.append` rejects it, and the platform `TypeError`
propagates out of `splitPart` instead of a headers/body pair. -/
theorem c10_counterexample : splitPart (strL "x") = .error JsErr.typeError := by
  decide

/-- Claim C10 (amended): `splitPart` is not total, but the only failure it
can raise is the `TypeError` of `Headers.prototype.append` on an invalid
header name or value.  An input starting with CRLF returns empty headers and
the input with that CRLF removed, never throwing; an input neither starting
with CRLF nor containing the CRLF CRLF separator parses its headers from the
input with its final character dropped (JavaScript `slice(0, -1)`), returns
them with the body equal to the input with its first three characters
dropped (`slice(3)`) when every append succeeds, and propagates the
`TypeError` otherwise. -/
theorem c10_split_part (p : Str) :
    (∀ e : JsErr, splitPart p = .error e → e = JsErr.typeError) ∧
    (crlf.isPrefixOf p = true → splitPart p = .ok ([], p.drop 2)) ∧
    (crlf.isPrefixOf p = false → findSub p crlf2 = none →
      (∀ hs : Headers, parseRawHeaders (p.take (p.length - 1)) = .ok hs →
        splitPart p = .ok (hs, p.drop 3)) ∧
      (∀ e : JsErr, parseRawHeaders (p.take (p.length - 1)) = .error e →
        splitPart p = .error e)) := by
  refine ⟨fun e h => splitPart_error_shape h, ?_, ?_⟩
  · intro h
    unfold splitPart
    simp [h]
  · intro h1 h2
    constructor
    · intro hs hraw
      unfold splitPart
      rw [if_neg (by simp [h1]), h2, hraw]
    · intro e hraw
      unfold splitPart
      rw [if_neg (by simp [h1]), h2, hraw]

/-- Witness for C10 at concrete inputs covering the CRLF branch, the
no-separator success branch, and the throwing branch. -/
theorem c10_split_part_witness :
    splitPart (strL "\r\nab") = .ok ([], strL "ab") ∧
    splitPart (strL "A: x") = .ok ([(strL "A", [])], strL "x") ∧
    splitPart (strL "x") = .error JsErr.typeError :=
  ⟨(c10_split_part (strL "\r\nab")).2.1 (by decide),
   by
    have h := ((c10_split_part (strL "A: x")).2.2 (by decide) (by decide)).1
      [(strL "A", [])] (by decide)
    exact h,
   ((c10_split_part (strL "x")).2.2 (by decide) (by decide)).2 JsErr.typeError (by decide)⟩

/-- The extractor `getBoundary` only fails with its two distinct messages. -/
theorem getBoundary_error_shape {hs : Headers} {e : JsErr}
    (h : getBoundary hs = .error e) :
    e = .formatError msgRespNoCT ∨ e = .formatError msgNoBoundary := by
  unfold getBoundary at h
  cases hct : hget hs ctKey with
  | none =>
    rw [hct] at h
    cases h
    exact Or.inl rfl
  | some ct =>
    rw [hct] at h
    dsimp only at h
    by_cases hempty : ct = []
    · rw [if_pos hempty] at h
      cases h
      exact Or.inl rfl
    · rw [if_neg hempty] at h
      cases hfind : ((splitSub (strL ";") ct).map jsTrim).find?
          (fun part => (strL "boundary=").isPrefixOf part) with
      | none =>
        rw [hfind] at h
        cases h
        exact Or.inr rfl
      | some bp =>
        rw [hfind] at h
        cases h

/-- The part loop fails only with the four format errors or a platform
`TypeError`/`RangeError`. -/
theorem parseParts_error_shape : ∀ n : Nat, ∀ jobs : List (Headers × Str), ∀ e : JsErr,
    partsWeight jobs ≤ n → parseParts jobs = .error e → errShape e := by
  intro n
  induction n with
  | zero =>
    intro jobs e hw hp
    cases jobs with
    | nil => rw [parseParts_nil] at hp; cases hp
    | cons j rest =>
      obtain ⟨phs, pbody⟩ := j
      exfalso
      simp only [partsWeight, List.map_cons, List.sum_cons] at hw
      omega
  | succ n ihn =>
    intro jobs e hw hp
    cases jobs with
    | nil => rw [parseParts_nil] at hp; cases hp
    | cons j rest =>
      obtain ⟨phs, pbody⟩ := j
      have hwrest : partsWeight rest ≤ n := by
        simp only [partsWeight, List.map_cons, List.sum_cons] at hw ⊢
        omega
      have hwbody : pbody.length ≤ n := by
        simp only [partsWeight, List.map_cons, List.sum_cons] at hw
        omega
      rw [parseParts_cons] at hp
      cases hct : hget phs ctKey with
      | none =>
        rw [hct] at hp
        cases hp
        exact Or.inr (Or.inr (Or.inl rfl))
      | some ct =>
        rw [hct] at hp
        dsimp only at hp
        by_cases hempty : ct = []
        · rw [if_pos hempty] at hp
          cases hp
          exact Or.inr (Or.inr (Or.inl rfl))
        · rw [if_neg hempty] at hp
          by_cases hhttp : ct = strL "application/http"
          · rw [if_pos hhttp] at hp
            cases hph : parseHttpResponse pbody with
            | error e2 =>
              rw [hph] at hp
              cases hp
              rcases parseHttpResponse_error_shape hph with h | h
              · exact Or.inr (Or.inr (Or.inr (Or.inr (Or.inl h))))
              · exact Or.inr (Or.inr (Or.inr (Or.inr (Or.inr h))))
            | ok r =>
              rw [hph] at hp
              dsimp only at hp
              cases hrest : parseParts rest with
              | error e2 =>
                rw [hrest] at hp
                cases hp
                exact ihn rest e hwrest hrest
              | ok rs => rw [hrest] at hp; cases hp
          · rw [if_neg hhttp] at hp
            by_cases hmm : (strL "multipart/mixed").isPrefixOf ct = true
            · rw [if_pos hmm] at hp
              cases hgb : getBoundary phs with
              | error e2 =>
                rw [hgb] at hp
                cases hp
                rcases getBoundary_error_shape hgb with h | h
                · exact Or.inl h
                · exact Or.inr (Or.inl h)
              | ok b =>
                rw [hgb] at hp
                dsimp only at hp
                cases hsa : splitAll (partsOf pbody b) with
                | error e2 =>
                  rw [hsa] at hp
                  cases hp
                  exact Or.inr (Or.inr (Or.inr (Or.inr
                    (Or.inl (splitAll_error_shape _ _ hsa)))))
                | ok jbs =>
                  rw [hsa] at hp
                  dsimp only at hp
                  have hjw : partsWeight jbs ≤ n :=
                    le_trans (splitAll_partsOf_le hsa) hwbody
                  cases hin : parseParts jbs with
                  | error e2 =>
                    rw [hin] at hp
                    cases hp
                    exact ihn jbs e hjw hin
                  | ok inner =>
                    rw [hin] at hp
                    dsimp only at hp
                    cases hrest : parseParts rest with
                    | error e2 =>
                      rw [hrest] at hp
                      cases hp
                      exact ihn rest e hwrest hrest
                    | ok rs => rw [hrest] at hp; cases hp
            · rw [if_neg hmm] at hp
              cases hp
              exact Or.inr (Or.inr (Or.inr (Or.inl ⟨ct, rfl⟩)))

set_option maxRecDepth 100000 in
/-- Counterexample to claim C4 as stated ("fails only on format
violations"): a well-framed multipart body whose single `application/http`
part carries status 204 makes the decoder fail with the platform `TypeError`
of the `Response` constructor (a string body with a null-body status), which
is none of the four descriptive format errors. -/
theorem c4_counterexample :
    parseMultipartResponse
        (strL "--B\r\nContent-Type: application/http\r\n\r\nHTTP/1.1 204 No Content\r\n\r\nx\r\n--B--")
        [(strL "Content-Type", strL "multipart/mixed; boundary=B")]
      = .error JsErr.typeError := by
  decide

/-- Claim C4 (amended): `parseMultipartResponse` fails with each of its four
distinct descriptive format errors on the four format violations — missing
(or empty, matching the falsy check) response `Content-Type`; a
`Content-Type` without a `boundary` attribute; a part without a content
type; a part whose content type is neither `application/http` nor
`multipart/mixed` (the error naming it) — but it does not fail only on
format violations: beyond these four, and only beyond these four, it can
also fail with the platform `TypeError`/`RangeError` raised by
`Headers.append` on an invalid header name or value and by the `Response`
constructor on an out-of-range status, a null-body status, or an invalid
reason phrase. -/
theorem c4_error_taxonomy :
    (∀ body : Str, ∀ hs : Headers, hget hs ctKey = none →
      parseMultipartResponse body hs = .error (.formatError msgRespNoCT)) ∧
    (∀ body : Str, ∀ hs : Headers, ∀ ct : Str, hget hs ctKey = some ct → ct ≠ [] →
      ((splitSub (strL ";") ct).map jsTrim).find?
          (fun part => (strL "boundary=").isPrefixOf part) = none →
      parseMultipartResponse body hs = .error (.formatError msgNoBoundary)) ∧
    (∀ phs : Headers, ∀ pbody : Str, ∀ rest : List (Headers × Str),
      hget phs ctKey = none →
      parseParts ((phs, pbody) :: rest) = .error (.formatError msgPartNoCT)) ∧
    (∀ phs : Headers, ∀ pbody : Str, ∀ rest : List (Headers × Str), ∀ ct : Str,
      hget phs ctKey = some ct → ct ≠ [] → ct ≠ strL "application/http" →
      (strL "multipart/mixed").isPrefixOf ct = false →
      parseParts ((phs, pbody) :: rest) = .error (.formatError (msgUnknownCT ++ ct))) ∧
    (∀ body : Str, ∀ hs : Headers, ∀ e : JsErr,
      parseMultipartResponse body hs = .error e → errShape e) := by
  refine ⟨?_, ?_, ?_, ?_, ?_⟩
  · intro body hs h
    unfold parseMultipartResponse getBoundary
    rw [h]
  · intro body hs ct h1 hne h2
    unfold parseMultipartResponse getBoundary
    rw [h1]
    dsimp only
    rw [if_neg hne, h2]
  · intro phs pbody rest h
    rw [parseParts_cons, h]
  · intro phs pbody rest ct h1 hne h2 h3
    rw [parseParts_cons, h1]
    dsimp only
    rw [if_neg hne, if_neg h2, if_neg (by simp [h3])]
  · intro body hs e h
    unfold parseMultipartResponse at h
    cases hgb : getBoundary hs with
    | error e2 =>
      rw [hgb] at h
      cases h
      rcases getBoundary_error_shape hgb with h | h
      · exact Or.inl h
      · exact Or.inr (Or.inl h)
    | ok b =>
      rw [hgb] at h
      dsimp only at h
      cases hsa : splitAll (partsOf body b) with
      | error e2 =>
        rw [hsa] at h
        cases h
        exact Or.inr (Or.inr (Or.inr (Or.inr
          (Or.inl (splitAll_error_shape _ _ hsa)))))
      | ok jobs =>
        rw [hsa] at h
        exact parseParts_error_shape (partsWeight jobs) jobs e le_rfl h

/-- Witness for C4 at concrete inputs: all four format failure modes. -/
theorem c4_error_taxonomy_witness :
    parseMultipartResponse (strL "x") [] = .error (.formatError msgRespNoCT) ∧
    parseMultipartResponse (strL "x") [(strL "Content-Type", strL "multipart/mixed")]
      = .error (.formatError msgNoBoundary) ∧
    parseParts [([], strL "y")] = .error (.formatError msgPartNoCT) ∧
    parseParts [([(strL "Content-Type", strL "text/plain")], strL "y")]
      = .error (.formatError (msgUnknownCT ++ strL "text/plain")) :=
  ⟨c4_error_taxonomy.1 (strL "x") [] (by decide),
   c4_error_taxonomy.2.1 (strL "x") [(strL "Content-Type", strL "multipart/mixed")]
     (strL "multipart/mixed") (by decide) (by decide) (by decide),
   c4_error_taxonomy.2.2.1 [] (strL "y") [] (by decide),
   c4_error_taxonomy.2.2.2.1 [(strL "Content-Type", strL "text/plain")] (strL "y") []
     (strL "text/plain") (by decide) (by decide) (by decide) (by decide)⟩

/-- The whitespace predicate only accepts the six listed characters. -/
theorem jsWs_cases {c : Char} (h : jsWs c = true) :
    c = ' ' ∨ c = '\t' ∨ c = '\n' ∨ c = '\r' ∨ c = '\x0b' ∨ c = '\x0c' := by
  simp only [jsWs, Bool.or_eq_true, beq_iff_eq] at h
  tauto

/-- Boundary characters are not whitespace. -/
theorem isBChar_not_ws {c : Char} (h : isBChar c = true) : jsWs c = false := by
  cases hw : jsWs c with
  | false => rfl
  | true =>
    exfalso
    rcases jsWs_cases hw with rfl | rfl | rfl | rfl | rfl | rfl <;>
      exact absurd h (by decide)

/-- Digit characters are not whitespace. -/
theorem isDigit_not_ws {c : Char} (h : c.isDigit = true) : jsWs c = false := by
  cases hw : jsWs c with
  | false => rfl
  | true =>
    exfalso
    rcases jsWs_cases hw with rfl | rfl | rfl | rfl | rfl | rfl <;>
      exact absurd h (by decide)

/-- A character of a safe boundary avoids any fixed unsafe character. -/
theorem boundaryOk_not_mem {b : Str} (h : boundaryOk b = true) {c : Char}
    (hc : isBChar c = false) : c ∉ b := by
  intro hmem
  simp only [boundaryOk, Bool.and_eq_true, List.all_eq_true] at h
  exact absurd (h.2 c hmem) (by simp [hc])

/-- A safe boundary is nonempty. -/
theorem boundaryOk_ne_nil {b : Str} (h : boundaryOk b = true) : b ≠ [] := by
  simp only [boundaryOk, Bool.and_eq_true] at h
  simpa using h.1

/-- Trimming ignores one leading space. -/
theorem jsTrim_cons_space (s : Str) : jsTrim (' ' :: s) = jsTrim s := by
  have hsp : jsWs ' ' = true := by decide
  simp [jsTrim, List.dropWhile_cons, hsp]

/-- A string with non-whitespace at both ends is unchanged by `trim()`. -/
theorem jsTrim_eq_self {s : Str}
    (hhead : ∀ c, s.head? = some c → jsWs c = false)
    (hlast : ∀ c, s.getLast? = some c → jsWs c = false) : jsTrim s = s := by
  cases hs : s with
  | nil => rfl
  | cons a t =>
    have ha : jsWs a = false := hhead a (by rw [hs]; rfl)
    unfold jsTrim
    rw [List.dropWhile_cons, ha]
    simp only [Bool.false_eq_true, if_false]
    cases hr : (a :: t).reverse with
    | nil => simp at hr
    | cons z zs =>
      have hz : (a :: t).getLast? = some z := by
        rw [← List.head?_reverse, hr]
        rfl
      have hzw : jsWs z = false := hlast z (by rw [hs]; exact hz)
      rw [List.dropWhile_cons, hzw]
      simp only [Bool.false_eq_true, if_false]
      rw [← hr, List.reverse_reverse]

/-- The last element of an append ending in a safe boundary is a boundary
character. -/
theorem getLast_append_boundary {lit b : Str} (hb : boundaryOk b = true) {c : Char}
    (h : (lit ++ b).getLast? = some c) : c ∈ b := by
  rw [List.getLast?_append_of_ne_nil lit (boundaryOk_ne_nil hb)] at h
  have h2 : b.reverse.head? = some c := by rw [List.head?_reverse]; exact h
  have h3 : c ∈ b.reverse := List.mem_of_mem_head? (by simp [h2])
  simpa using h3

/-- Trimming a nonempty literal-plus-boundary value with non-whitespace head
leaves it unchanged. -/
theorem jsTrim_lit_boundary {x : Char} {m b : Str} (hx : jsWs x = false)
    (hb : boundaryOk b = true) : jsTrim ((x :: m) ++ b) = (x :: m) ++ b := by
  apply jsTrim_eq_self
  · intro c hc
    simp only [List.cons_append, List.head?_cons, Option.some_inj] at hc
    subst hc
    exact hx
  · intro c hc
    have := getLast_append_boundary hb hc
    simp only [boundaryOk, Bool.and_eq_true, List.all_eq_true] at hb
    exact isBChar_not_ws (hb.2 c this)

/-- Printing with `natDigitsF` at zero returns the accumulator. -/
theorem natDigitsF_zero : ∀ f : Nat, ∀ acc : Str, natDigitsF f 0 acc = acc := by
  intro f acc
  cases f <;> rfl

/-- One step of `natDigitsF` on a positive number. -/
theorem natDigitsF_succ (f n : Nat) (acc : Str) (h0 : n ≠ 0) :
    natDigitsF (f + 1) n acc = natDigitsF f (n / 10) (digitChar (n % 10) :: acc) := by
  conv_lhs => unfold natDigitsF
  rw [if_neg h0]

/-- Printing with `natDigitsF` prepends its digits to the accumulator. -/
theorem natDigitsF_append : ∀ f n : Nat, ∀ acc : Str, n ≤ f →
    natDigitsF f n acc = natDigitsF f n [] ++ acc := by
  intro f
  induction f with
  | zero =>
    intro n acc hn
    have : n = 0 := by omega
    subst this
    rfl
  | succ f ihf =>
    intro n acc hn
    by_cases h0 : n = 0
    · subst h0
      simp [natDigitsF_zero]
    · have hdiv : n / 10 ≤ f := by
        have := Nat.div_lt_self (by omega : 0 < n) (by omega : 1 < 10)
        omega
      rw [natDigitsF_succ f n acc h0, natDigitsF_succ f n [] h0]
      rw [ihf (n / 10) (digitChar (n % 10) :: acc) hdiv,
        ihf (n / 10) [digitChar (n % 10)] hdiv]
      simp

/-- The digit character is always a decimal digit. -/
theorem digitChar_isDigit (d : Nat) : (digitChar d).isDigit = true := by
  unfold digitChar
  split <;> decide

/-- The digit character round-trips through `digitVal` below ten. -/
theorem digitVal_digitChar {d : Nat} (h : d < 10) : digitVal (digitChar d) = d := by
  interval_cases d <;> decide

/-- Every character produced by `natDigitsF` over a digit accumulator is a
digit. -/
theorem natDigitsF_all_digit : ∀ f n : Nat, ∀ acc : Str,
    (∀ c ∈ acc, c.isDigit = true) → ∀ c ∈ natDigitsF f n acc, c.isDigit = true := by
  intro f
  induction f with
  | zero =>
    intro n acc hacc c hc
    exact hacc c hc
  | succ f ihf =>
    intro n acc hacc c hc
    by_cases h0 : n = 0
    · subst h0
      rw [natDigitsF_zero] at hc
      exact hacc c hc
    · rw [natDigitsF_succ f n acc h0] at hc
      refine ihf (n / 10) (digitChar (n % 10) :: acc) ?_ c hc
      intro d hd
      rcases List.mem_cons.mp hd with rfl | hd
      · exact digitChar_isDigit (n % 10)
      · exact hacc d hd

/-- Every character of a printed number is a digit. -/
theorem natDigits_all_digit (n : Nat) : ∀ c ∈ natDigits n, c.isDigit = true := by
  unfold natDigits
  split
  · intro c hc
    simp only [List.mem_singleton] at hc
    subst hc
    decide
  · exact natDigitsF_all_digit n n [] (by simp)

/-- A printed number is never empty. -/
theorem natDigits_ne_nil (n : Nat) : natDigits n ≠ [] := by
  unfold natDigits
  split
  · simp
  · cases hn : n with
    | zero => exact absurd hn ‹¬ n = 0›
    | succ m =>
      rw [natDigitsF_succ m (m + 1) [] (by omega)]
      rw [natDigitsF_append m ((m + 1) / 10) [digitChar ((m + 1) % 10)] (by
        have := Nat.div_lt_self (by omega : 0 < m + 1) (by omega : 1 < 10)
        omega)]
      simp

/-- Evaluation of `digitsVal` at an appended digit. -/
theorem digitsVal_append_single (xs : Str) (c : Char) :
    digitsVal (xs ++ [c]) = 10 * digitsVal xs + digitVal c := by
  unfold digitsVal
  rw [List.foldl_append]
  rfl

/-- The printed digits of a positive number evaluate back to it. -/
theorem natDigitsF_value : ∀ f n : Nat, 0 < n → n ≤ f →
    digitsVal (natDigitsF f n []) = n := by
  intro f
  induction f with
  | zero => intro n h1 h2; omega
  | succ f ihf =>
    intro n h1 h2
    rw [natDigitsF_succ f n [] (by omega)]
    by_cases hq : n / 10 = 0
    · rw [hq, natDigitsF_zero]
      have hlt : n < 10 := (Nat.div_eq_zero_iff (by omega)).mp hq
      have hsingle : digitsVal [digitChar (n % 10)] = digitVal (digitChar (n % 10)) := by
        simp [digitsVal]
      rw [hsingle, digitVal_digitChar (by omega)]
      omega
    · have hdiv : n / 10 ≤ f := by
        have := Nat.div_lt_self (by omega : 0 < n) (by omega : 1 < 10)
        omega
      rw [natDigitsF_append f (n / 10) [digitChar (n % 10)] hdiv]
      rw [digitsVal_append_single]
      rw [ihf (n / 10) (by omega) hdiv]
      rw [digitVal_digitChar (by
        have := Nat.mod_lt n (by omega : 0 < 10)
        omega)]
      have := Nat.div_add_mod n 10
      omega

/-- The printed digits of any number evaluate back to it. -/
theorem digitsVal_natDigits (n : Nat) : digitsVal (natDigits n) = n := by
  unfold natDigits
  split
  · subst ‹n = 0›
    decide
  · exact natDigitsF_value n n (by omega) le_rfl

/-- The function `takeWhile` keeps a list all of whose elements satisfy the predicate. -/
theorem takeWhile_all {p : Char → Bool} : ∀ l : Str, (∀ c ∈ l, p c = true) →
    l.takeWhile p = l := by
  intro l
  induction l with
  | nil => intro _; rfl
  | cons a t ih =>
    intro h
    rw [List.takeWhile_cons, h a (by simp)]
    simp [ih (fun c hc => h c (by simp [hc]))]

/-- Parsing with `Number.parseInt` inverts decimal printing. -/
theorem parseIntJs_natDigits (n : Nat) : parseIntJs (natDigits n) = some (n : Int) := by
  cases hl : natDigits n with
  | nil => exact absurd hl (natDigits_ne_nil n)
  | cons d rest =>
    have hall := natDigits_all_digit n
    rw [hl] at hall
    have hd : d.isDigit = true := hall d (by simp)
    have hdrop : (d :: rest).dropWhile jsWs = d :: rest := by
      rw [List.dropWhile_cons, isDigit_not_ws hd]
      simp
    have hminus : ¬ d = '-' := by
      intro h
      subst h
      exact absurd hd (by decide)
    have hplus : ¬ d = '+' := by
      intro h
      subst h
      exact absurd hd (by decide)
    unfold parseIntJs
    rw [hdrop]
    dsimp only
    rw [if_neg hminus, if_neg hplus]
    unfold digitsPre
    rw [takeWhile_all (d :: rest) hall]
    have hne : ¬ (d :: rest : Str) = [] := by simp
    rw [if_neg hne]
    rw [← hl, digitsVal_natDigits]
    rfl

/-- Unfold a clean-chunk check. -/
theorem cleanB_none {pat chunk : Str} (h : cleanB pat chunk = true) :
    findSub (chunk ++ pat.dropLast) pat = none := by
  unfold cleanB at h
  exact Option.isNone_iff_eq_none.mp h

/-- The closing marker is nonempty. -/
theorem endMark_ne_nil (b : Str) : endMark b ≠ [] := by
  simp [endMark, strL]

/-- Prefix tests ignore a long enough right extension. -/
theorem isPrefixOf_append_of_le {p s t : Str} (h : p.length ≤ s.length) :
    p.isPrefixOf (s ++ t) = p.isPrefixOf s := by
  cases hc : p.isPrefixOf s with
  | true =>
    exact isPrefixOf_iff.mpr ((isPrefixOf_iff.mp hc).trans (List.prefix_append s t))
  | false =>
    cases hl : p.isPrefixOf (s ++ t) with
    | false => rfl
    | true =>
      exfalso
      have hp : p <+: s ++ t := isPrefixOf_iff.mp hl
      have hs : s <+: s ++ t := List.prefix_append s t
      have : p <+: s := List.prefix_of_prefix_length_le hp hs h
      rw [isPrefixOf_iff.mpr this] at hc
      cases hc

/-- The joined parts of a nonempty forest are the opener followed by the
tail string. -/
theorem joinParts_tail_aux (b : Str) : ∀ n : Nat, ∀ cs : RForest, sizeOf cs ≤ n →
    ∀ t : RTree, joinParts b (.cons t cs) ++ crlf = sepFor b ++ tailStr b (.cons t cs) := by
  intro n
  induction n with
  | zero =>
    intro cs h t
    cases cs with
    | nil =>
      show (sepFor b ++ encContent t) ++ crlf = sepFor b ++ (encContent t ++ crlf)
      simp
    | cons u us =>
      exfalso
      have := RForest.cons.sizeOf_spec u us
      omega
  | succ n ihn =>
    intro cs h t
    cases cs with
    | nil =>
      show (sepFor b ++ encContent t) ++ crlf = sepFor b ++ (encContent t ++ crlf)
      simp
    | cons u us =>
      have hsize : sizeOf us ≤ n := by
        have h1 := RForest.cons.sizeOf_spec u us
        have h2 : 0 ≤ sizeOf u := by omega
        omega
      have ih := ihn us hsize u
      show (sepFor b ++ encContent t ++ crlf ++ joinParts b (.cons u us)) ++ crlf
        = sepFor b ++ (encContent t ++ crlf ++ (sepFor b ++ tailStr b (.cons u us)))
      rw [← ih]
      simp

/-- The joined parts of a nonempty forest, packaged. -/
theorem joinParts_tail (b : Str) (cs : RForest) (t : RTree) :
    joinParts b (.cons t cs) ++ crlf = sepFor b ++ tailStr b (.cons t cs) :=
  joinParts_tail_aux b (sizeOf cs) cs le_rfl t

/-- Splitting the tail string of a nonempty clean forest yields its chunk
strings. -/
theorem tailStr_split_aux (b : Str) : ∀ n : Nat, ∀ cs : RForest, sizeOf cs ≤ n →
    ∀ t : RTree, cleanB (sepFor b) (encContent t ++ crlf) = true →
    chunksOkF b cs = true →
    splitSub (sepFor b) (tailStr b (.cons t cs)) = chunksStrF (.cons t cs) := by
  intro n
  induction n with
  | zero =>
    intro cs h t hct hcs
    cases cs with
    | nil =>
      show splitSub (sepFor b) (encContent t ++ crlf) = [encContent t ++ crlf]
      exact splitSub_of_none (findSub_none_of_append (cleanB_none hct))
    | cons u us =>
      exfalso
      have := RForest.cons.sizeOf_spec u us
      omega
  | succ n ihn =>
    intro cs h t hct hcs
    cases cs with
    | nil =>
      show splitSub (sepFor b) (encContent t ++ crlf) = [encContent t ++ crlf]
      exact splitSub_of_none (findSub_none_of_append (cleanB_none hct))
    | cons u us =>
      have hsize : sizeOf us ≤ n := by
        have h1 := RForest.cons.sizeOf_spec u us
        omega
      have hsplit : cleanB (sepFor b) (encContent u ++ crlf) = true ∧ chunksOkF b us = true := by
        unfold chunksOkF at hcs
        simp only [Bool.and_eq_true] at hcs
        exact hcs
      have hcu := hsplit.1
      have hcus := hsplit.2
      have ih := ihn us hsize u hcu hcus
      show splitSub (sepFor b)
          (encContent t ++ crlf ++ (sepFor b ++ tailStr b (.cons u us)))
        = (encContent t ++ crlf) :: chunksStrF (.cons u us)
      rw [show encContent t ++ crlf ++ (sepFor b ++ tailStr b (.cons u us))
            = (encContent t ++ crlf) ++ sepFor b ++ tailStr b (.cons u us) by simp]
      rw [splitSub_append_self (sepFor_ne_nil b) (cleanB_none hct)]
      rw [ih]

/-- The raw parts of an encoded body under its boundary are exactly the
forest's chunk strings, whatever follows the closing marker. -/
theorem partsOf_encBody {b : Str} (cs : RForest) (extra : Str)
    (hend : cleanB (endMark b) (joinParts b cs ++ crlf) = true)
    (hchunks : chunksOkF b cs = true) :
    partsOf (encBody b cs ++ extra) b = chunksStrF cs := by
  have hfind : findSub ((joinParts b cs ++ crlf) ++ endMark b ++ extra) (endMark b)
      = some (joinParts b cs ++ crlf).length :=
    findSub_append_self (endMark_ne_nil b) (cleanB_none hend)
  have hbody : encBody b cs ++ extra = (joinParts b cs ++ crlf) ++ endMark b ++ extra := by
    unfold encBody
    simp
  have htrim : trimAtEnd (encBody b cs ++ extra) b = joinParts b cs ++ crlf := by
    unfold trimAtEnd
    rw [hbody, hfind]
    rw [List.append_assoc]
    exact List.take_left _ _
  unfold partsOf
  rw [htrim]
  cases cs with
  | nil =>
    have hshort : findSub crlf (sepFor b) = none := by
      apply findSub_none_of_short
      simp [crlf, sepFor, strL]
    show (splitSub (sepFor b) ([] ++ crlf)).drop 1 = chunksStrF .nil
    rw [List.nil_append, splitSub_of_none hshort]
    rfl
  | cons t ts =>
    rw [joinParts_tail b ts t]
    have hsep0 : findSub ([] ++ (sepFor b).dropLast) (sepFor b) = none := by
      apply findSub_none_of_short
      rw [List.nil_append, List.length_dropLast]
      have : sepFor b ≠ [] := sepFor_ne_nil b
      have : 0 < (sepFor b).length := List.length_pos.mpr this
      omega
    have hsplitc : cleanB (sepFor b) (encContent t ++ crlf) = true ∧ chunksOkF b ts = true := by
      unfold chunksOkF at hchunks
      simp only [Bool.and_eq_true] at hchunks
      exact hchunks
    have hcu := hsplitc.1
    have hcus := hsplitc.2
    rw [show sepFor b ++ tailStr b (.cons t ts)
          = [] ++ sepFor b ++ tailStr b (.cons t ts) by simp]
    rw [splitSub_append_self (sepFor_ne_nil b) hsep0]
    rw [tailStr_split_aux b (sizeOf ts) ts le_rfl t hcu hcus]
    rfl

/-- Splitting a leaf part separates its fixed headers (which always pass
header validation) from the raw HTTP response text. -/
theorem splitPart_leaf (st : Nat) (bd : Str) :
    splitPart (encContent (.leaf st bd) ++ crlf)
      = .ok (httpPartHeaders, leafHttp st bd ++ crlf) := by
  have hshape : encContent (.leaf st bd) ++ crlf
      = httpPartHdr ++ (crlf2 ++ (leafHttp st bd ++ crlf)) := by
    show (httpPartHdr ++ crlf2 ++ leafHttp st bd) ++ crlf = _
    simp
  rw [hshape]
  unfold splitPart
  have hpre : crlf.isPrefixOf (httpPartHdr ++ (crlf2 ++ (leafHttp st bd ++ crlf))) = false := by
    rw [isPrefixOf_append_of_le (by decide)]
    decide
  simp only [hpre, Bool.false_eq_true, if_false]
  have hfind : findSub (httpPartHdr ++ crlf2 ++ (leafHttp st bd ++ crlf)) crlf2
      = some httpPartHdr.length :=
    findSub_append_self (by decide) (by decide)
  rw [show httpPartHdr ++ (crlf2 ++ (leafHttp st bd ++ crlf))
        = httpPartHdr ++ crlf2 ++ (leafHttp st bd ++ crlf) by simp]
  rw [hfind]
  dsimp only
  have ht : (httpPartHdr ++ crlf2 ++ (leafHttp st bd ++ crlf)).take httpPartHdr.length
      = httpPartHdr := by
    rw [List.append_assoc]
    exact List.take_left _ _
  have hd : (httpPartHdr ++ crlf2 ++ (leafHttp st bd ++ crlf)).drop (httpPartHdr.length + 4)
      = leafHttp st bd ++ crlf := by
    rw [show httpPartHdr.length + 4 = (httpPartHdr ++ crlf2).length by simp [crlf2, strL]]
    exact List.drop_left _ _
  rw [ht, hd]
  rw [show parseRawHeaders httpPartHdr = .ok httpPartHeaders from by decide]

/-- One chunk of a split equals its one-element intercalation. -/
theorem intercalate_single (sep x : Str) : List.intercalate sep [x] = x := by
  simp [List.intercalate]

/-- Unpacking a constructible leaf status. -/
theorem statusOkB_spec {st : Nat} (h : statusOkB st = true) :
    200 ≤ st ∧ st ≤ 599 ∧ nullBodyStatus st = false := by
  unfold statusOkB at h
  simp only [Bool.and_eq_true, decide_eq_true_eq, Bool.not_eq_true'] at h
  exact ⟨h.1.1, h.1.2, h.2⟩

/-- The `unsigned short` conversion is the identity below 2^16. -/
theorem toU16_small (st : Nat) (h : st < 65536) : toU16 (some (st : Int)) = st := by
  show ((st : Int) % 65536).toNat = st
  rw [Int.emod_eq_of_lt (Int.natCast_nonneg st) (by exact_mod_cast h)]
  simp

/-- Parsing the raw HTTP text of a leaf with a constructible status yields
its response. -/
theorem parseHttpResponse_leaf (st : Nat) (bd : Str) (hst : statusOkB st = true)
    (hbd : jsTrim (bd ++ crlf) = bd) :
    parseHttpResponse (leafHttp st bd ++ crlf) = .ok (mkResp st bd) := by
  obtain ⟨h1, h2, hnb⟩ := statusOkB_spec hst
  have hnl : '\n' ∉ statusLineFor st := by
    unfold statusLineFor
    intro hmem
    rcases List.mem_append.mp hmem with hin | hin
    · rcases List.mem_append.mp hin with h2 | h2
      · revert h2
        decide
      · exact absurd (natDigits_all_digit st _ h2) (by decide)
    · revert hin
      decide
  have hshape : leafHttp st bd ++ crlf
      = statusLineFor st ++ crlf ++ (crlf ++ (bd ++ crlf)) := by
    show (statusLineFor st ++ crlf ++ crlf ++ bd) ++ crlf = _
    simp
  rw [hshape, parseHttpResponse_decomp (statusLineFor st) (crlf ++ (bd ++ crlf)) hnl]
  have hsl : statusLineFor st
      = strL "HTTP/1.1" ++ strL " " ++ (natDigits st ++ (strL " " ++ strL "OK")) := by
    unfold statusLineFor
    rw [show strL "HTTP/1.1 " = strL "HTTP/1.1" ++ strL " " from rfl,
      show strL " OK" = strL " " ++ strL "OK" from rfl]
    simp
  have hna : findSub (natDigits st ++ (strL " ").dropLast) (strL " ") = none := by
    rw [show (strL " ").dropLast = ([] : Str) from rfl, List.append_nil]
    apply findSub_none_of_not_mem ' '
    · decide
    · intro hmem
      exact absurd (natDigits_all_digit st _ hmem) (by decide)
  have hws : splitSub (strL " ") (statusLineFor st)
      = [strL "HTTP/1.1", natDigits st, strL "OK"] := by
    rw [hsl]
    rw [splitSub_append_self (by decide) (by decide)]
    rw [show natDigits st ++ (strL " " ++ strL "OK")
          = natDigits st ++ strL " " ++ strL "OK" by simp]
    rw [splitSub_append_self (by decide) hna]
    rw [splitSub_of_none (by decide)]
  have hsp : splitPart (crlf ++ (bd ++ crlf)) = .ok ([], bd ++ crlf) := by
    unfold splitPart
    have hpre : crlf.isPrefixOf (crlf ++ (bd ++ crlf)) = true :=
      isPrefixOf_iff.mpr (List.prefix_append _ _)
    simp only [hpre, if_true]
    rw [show (2 : Nat) = crlf.length from rfl]
    rw [List.drop_left]
  rw [hsp]
  dsimp only
  rw [hws]
  rw [show (([strL "HTTP/1.1", natDigits st, strL "OK"] : List Str).getD 1 [])
        = natDigits st from rfl]
  rw [show ([strL "HTTP/1.1", natDigits st, strL "OK"] : List Str).drop 2
        = [strL "OK"] from rfl]
  rw [parseIntJs_natDigits]
  rw [intercalate_single]
  unfold mkResponse
  rw [toU16_small st (by omega)]
  rw [if_pos (by
    simp only [Bool.and_eq_true, decide_eq_true_eq]
    exact ⟨h1, h2⟩)]
  rw [if_pos (by decide)]
  rw [if_neg (by rw [hnb]; simp)]
  rw [hbd]
  rfl

/-- CRLF is no prefix of a string starting with another character. -/
theorem crlf_not_prefix_cons {c : Char} (t : Str) (hc : c ≠ '\r') :
    crlf.isPrefixOf (c :: t) = false := by
  have hbeq : (('\r' : Char) == c) = false := beq_eq_false_iff_ne.mpr (fun h => hc h.symm)
  show (['\r', '\n'] : Str).isPrefixOf (c :: t) = false
  simp [List.isPrefixOf, hbeq]

/-- The newline character never occurs in the content-type line of a nested
envelope with a safe boundary. -/
theorem nl_not_mem_mmCtLine {b : Str} (hb : boundaryOk b = true) : '\n' ∉ mmCtLine b := by
  intro hmem
  rcases List.mem_append.mp hmem with hin | hin
  · revert hin
    decide
  · exact absurd hin (boundaryOk_not_mem hb (by decide))

/-- Boundary characters are not HTTP whitespace. -/
theorem isBChar_not_httpWs {c : Char} (h : isBChar c = true) : httpWs c = false := by
  cases hw : httpWs c with
  | false => rfl
  | true =>
    exfalso
    simp only [httpWs, Bool.or_eq_true, beq_iff_eq] at hw
    rcases hw with ((rfl | rfl) | rfl) | rfl <;> exact absurd h (by decide)

/-- Boundary characters are valid header-value characters. -/
theorem isBChar_not_ctl {c : Char} (h : isBChar c = true) :
    (!(c == '\x00' || c == '\n' || c == '\r')) = true := by
  cases hw : (c == '\x00' || c == '\n' || c == '\r') with
  | false => rfl
  | true =>
    exfalso
    simp only [Bool.or_eq_true, beq_iff_eq] at hw
    rcases hw with (rfl | rfl) | rfl <;> exact absurd h (by decide)

/-- A string with non-HTTP-whitespace at both ends is unchanged by header
value normalization. -/
theorem normalizeHv_eq_self {s : Str}
    (hhead : ∀ c, s.head? = some c → httpWs c = false)
    (hlast : ∀ c, s.getLast? = some c → httpWs c = false) : normalizeHv s = s := by
  cases hs : s with
  | nil => rfl
  | cons a t =>
    have ha : httpWs a = false := hhead a (by rw [hs]; rfl)
    unfold normalizeHv
    rw [List.dropWhile_cons, ha]
    simp only [Bool.false_eq_true, if_false]
    cases hr : (a :: t).reverse with
    | nil => simp at hr
    | cons z zs =>
      have hz : (a :: t).getLast? = some z := by
        rw [← List.head?_reverse, hr]
        rfl
      have hzw : httpWs z = false := hlast z (by rw [hs]; exact hz)
      rw [List.dropWhile_cons, hzw]
      simp only [Bool.false_eq_true, if_false]
      rw [← hr, List.reverse_reverse]

/-- Normalizing a nonempty literal-plus-boundary value with
non-HTTP-whitespace head leaves it unchanged. -/
theorem normalizeHv_lit_boundary {x : Char} {m b : Str} (hx : httpWs x = false)
    (hb : boundaryOk b = true) : normalizeHv ((x :: m) ++ b) = (x :: m) ++ b := by
  apply normalizeHv_eq_self
  · intro c hc
    simp only [List.cons_append, List.head?_cons, Option.some_inj] at hc
    subst hc
    exact hx
  · intro c hc
    have := getLast_append_boundary hb hc
    simp only [boundaryOk, Bool.and_eq_true, List.all_eq_true] at hb
    exact isBChar_not_httpWs (hb.2 c this)

/-- A nested-envelope content-type value is a valid header value. -/
theorem validHv_mmHeaderVal {b : Str} (hb : boundaryOk b = true) :
    validHv (mmHeaderVal b) = true := by
  unfold validHv mmHeaderVal
  rw [List.all_append]
  rw [show (strL "multipart/mixed; boundary=").all
      (fun c => !(c == '\x00' || c == '\n' || c == '\r')) = true from by decide]
  simp only [Bool.true_and]
  rw [List.all_eq_true]
  intro c hc
  simp only [boundaryOk, Bool.and_eq_true, List.all_eq_true] at hb
  exact isBChar_not_ctl (hb.2 c hc)

/-- A nested-envelope content-type value is nonempty. -/
theorem mmHeaderVal_ne_nil (b : Str) : mmHeaderVal b ≠ [] := by
  rw [show mmHeaderVal b = 'm' :: (strL "ultipart/mixed; boundary=" ++ b) from rfl]
  simp

/-- Parsing the single header line of a nested envelope: the line splits at
its colon, the value passes validation, and the append succeeds. -/
theorem parseRawHeaders_mmCtLine {b : Str} (hb : boundaryOk b = true) :
    parseRawHeaders (mmCtLine b) = .ok [(strL "Content-Type", mmHeaderVal b)] := by
  unfold parseRawHeaders
  have hnosplit : splitSub crlf (mmCtLine b) = [mmCtLine b] :=
    splitSub_of_none (findSub_none_of_not_mem '\n' (by decide) (nl_not_mem_mmCtLine hb))
  rw [hnosplit]
  have hdecomp : mmCtLine b
      = strL "Content-Type" ++ strL ":" ++ (strL " multipart/mixed; boundary=" ++ b) := by
    show strL "Content-Type: multipart/mixed; boundary=" ++ b = _
    rw [show strL "Content-Type: multipart/mixed; boundary="
          = strL "Content-Type" ++ strL ":" ++ strL " multipart/mixed; boundary=" from rfl]
    simp
  have hfind : findSub (mmCtLine b) (strL ":") = some (strL "Content-Type").length := by
    rw [hdecomp]
    exact findSub_append_self (by decide) (by decide)
  have ht : (mmCtLine b).take (strL "Content-Type").length = strL "Content-Type" := by
    rw [hdecomp, List.append_assoc]
    exact List.take_left _ _
  have hd : (mmCtLine b).drop ((strL "Content-Type").length + 1)
      = strL " multipart/mixed; boundary=" ++ b := by
    rw [hdecomp]
    rw [show (strL "Content-Type").length + 1
          = (strL "Content-Type" ++ strL ":").length by simp [strL]]
    exact List.drop_left _ _
  have htrim : jsTrim (strL " multipart/mixed; boundary=" ++ b) = mmHeaderVal b := by
    rw [show strL " multipart/mixed; boundary=" ++ b
          = ' ' :: (('m' :: strL "ultipart/mixed; boundary=") ++ b) from by
      rw [show strL " multipart/mixed; boundary="
            = ' ' :: 'm' :: strL "ultipart/mixed; boundary=" from rfl]
      simp]
    rw [jsTrim_cons_space, jsTrim_lit_boundary (by decide) hb]
    show ('m' :: strL "ultipart/mixed; boundary=") ++ b = mmHeaderVal b
    rw [show ('m' :: strL "ultipart/mixed; boundary=")
          = strL "multipart/mixed; boundary=" from rfl]
    rfl
  have hline : parseHeaderLine (mmCtLine b) = (strL "Content-Type", mmHeaderVal b) := by
    unfold parseHeaderLine
    rw [hfind]
    dsimp only
    rw [ht, hd, htrim]
  have hnorm : normalizeHv (mmHeaderVal b) = mmHeaderVal b := by
    rw [show mmHeaderVal b = ('m' :: strL "ultipart/mixed; boundary=") ++ b from rfl]
    exact normalizeHv_lit_boundary (by decide) hb
  unfold appendLines
  rw [hline]
  dsimp only
  unfold hAppend
  rw [hnorm]
  rw [if_pos (by
    rw [Bool.and_eq_true]
    exact ⟨by decide, validHv_mmHeaderVal hb⟩)]
  rfl

/-- Splitting a nested-envelope part separates its content-type header from
its nested body. -/
theorem splitPart_node (b : Str) (cs : RForest) (hb : boundaryOk b = true) :
    splitPart (encContent (.node b cs) ++ crlf)
      = .ok ([(strL "Content-Type", mmHeaderVal b)], encBody b cs ++ crlf) := by
  have hshape : encContent (.node b cs) ++ crlf
      = mmCtLine b ++ crlf2 ++ (encBody b cs ++ crlf) := by
    show (mmCtLine b ++ crlf2 ++ (joinParts b cs ++ crlf ++ endMark b)) ++ crlf = _
    unfold encBody
    simp
  rw [hshape]
  unfold splitPart
  have hccons : mmCtLine b ++ crlf2 ++ (encBody b cs ++ crlf)
      = 'C' :: (strL "ontent-Type: multipart/mixed; boundary="
          ++ (b ++ (crlf2 ++ (encBody b cs ++ crlf)))) := by
    show (strL "Content-Type: multipart/mixed; boundary=" ++ b) ++ crlf2
        ++ (encBody b cs ++ crlf) = _
    rw [show strL "Content-Type: multipart/mixed; boundary="
          = 'C' :: strL "ontent-Type: multipart/mixed; boundary=" from rfl]
    simp
  have hpre : crlf.isPrefixOf (mmCtLine b ++ crlf2 ++ (encBody b cs ++ crlf)) = false := by
    rw [hccons]
    exact crlf_not_prefix_cons _ (by decide)
  simp only [hpre, Bool.false_eq_true, if_false]
  have hcount : findSub (mmCtLine b ++ crlf2.dropLast) crlf2 = none := by
    apply findSub_none_of_count_lt '\n'
    rw [List.count_append]
    have h1 : (mmCtLine b).count '\n' = 0 := List.count_eq_zero.mpr (nl_not_mem_mmCtLine hb)
    have h2 : (crlf2.dropLast).count '\n' = 1 := by decide
    have h3 : crlf2.count '\n' = 2 := by decide
    omega
  have hfind : findSub (mmCtLine b ++ crlf2 ++ (encBody b cs ++ crlf)) crlf2
      = some (mmCtLine b).length :=
    findSub_append_self (by decide) hcount
  rw [hfind]
  dsimp only
  have ht : (mmCtLine b ++ crlf2 ++ (encBody b cs ++ crlf)).take (mmCtLine b).length
      = mmCtLine b := by
    rw [List.append_assoc]
    exact List.take_left _ _
  have hd : (mmCtLine b ++ crlf2 ++ (encBody b cs ++ crlf)).drop ((mmCtLine b).length + 4)
      = encBody b cs ++ crlf := by
    rw [show (mmCtLine b).length + 4 = (mmCtLine b ++ crlf2).length by simp [crlf2, strL]]
    exact List.drop_left _ _
  rw [ht, hd, parseRawHeaders_mmCtLine hb]

/-- Case-insensitive lookup in a one-entry content-type header list. -/
theorem hget_ct_single (v : Str) : hget [(strL "Content-Type", v)] ctKey = some v := by
  unfold hget
  have he : (lowerStr (strL "Content-Type") == lowerStr ctKey) = true := by decide
  simp only [List.filter_cons, he, if_true, List.filter_nil]
  rw [show ([(strL "Content-Type", v)].map fun kv => kv.2) = [v] from rfl]
  rw [intercalate_single]

/-- A nested-envelope content type is not the plain HTTP content type. -/
theorem mm_ne_http (b : Str) : mmHeaderVal b ≠ strL "application/http" := by
  intro h
  have hh := congrArg List.head? h
  rw [show mmHeaderVal b = 'm' :: (strL "ultipart/mixed; boundary=" ++ b) from by
    show strL "multipart/mixed; boundary=" ++ b = _
    rw [show strL "multipart/mixed; boundary="
          = 'm' :: strL "ultipart/mixed; boundary=" from rfl]
    rfl] at hh
  rw [show strL "application/http" = 'a' :: strL "pplication/http" from rfl] at hh
  simp at hh

/-- A nested-envelope content type starts with `multipart/mixed`. -/
theorem mm_isPrefix (b : Str) : (strL "multipart/mixed").isPrefixOf (mmHeaderVal b) = true := by
  apply isPrefixOf_iff.mpr
  rw [show mmHeaderVal b = strL "multipart/mixed" ++ (strL "; boundary=" ++ b) from by
    show strL "multipart/mixed; boundary=" ++ b = _
    rw [show strL "multipart/mixed; boundary="
          = strL "multipart/mixed" ++ strL "; boundary=" from rfl]
    simp]
  exact List.prefix_append _ _

/-- The extractor `getBoundary` recovers a safe boundary from a nested-envelope content
type. -/
theorem getBoundary_mm {hs : Headers} {b : Str} (hb : boundaryOk b = true)
    (h : hget hs ctKey = some (mmHeaderVal b)) : getBoundary hs = .ok b := by
  unfold getBoundary
  rw [h]
  dsimp only
  rw [if_neg (mmHeaderVal_ne_nil b)]
  have hsemi : findSub (strL " boundary=" ++ b) (strL ";") = none := by
    apply findSub_none_of_not_mem ';'
    · decide
    · intro hmem
      rcases List.mem_append.mp hmem with hin | hin
      · revert hin
        decide
      · exact absurd hin (boundaryOk_not_mem hb (by decide))
  have hs1 : splitSub (strL ";") (mmHeaderVal b)
      = [strL "multipart/mixed", strL " boundary=" ++ b] := by
    rw [show mmHeaderVal b
          = strL "multipart/mixed" ++ strL ";" ++ (strL " boundary=" ++ b) from by
      show strL "multipart/mixed; boundary=" ++ b = _
      rw [show strL "multipart/mixed; boundary="
            = strL "multipart/mixed" ++ strL ";" ++ strL " boundary=" from rfl]
      simp]
    rw [splitSub_append_self (by decide) (by decide)]
    rw [splitSub_of_none hsemi]
  have htrim2 : jsTrim (strL " boundary=" ++ b) = strL "boundary=" ++ b := by
    rw [show strL " boundary=" ++ b = ' ' :: (('b' :: strL "oundary=") ++ b) from by
      rw [show strL " boundary=" = ' ' :: 'b' :: strL "oundary=" from rfl]
      simp]
    rw [jsTrim_cons_space, jsTrim_lit_boundary (by decide) hb]
    rfl
  have htrim1 : jsTrim (strL "multipart/mixed") = strL "multipart/mixed" := by decide
  have hfindq : ((splitSub (strL ";") (mmHeaderVal b)).map jsTrim).find?
      (fun part => (strL "boundary=").isPrefixOf part)
      = some (strL "boundary=" ++ b) := by
    rw [hs1]
    simp only [List.map_cons, List.map_nil, htrim1, htrim2]
    rw [List.find?_cons_of_neg _ (by decide)]
    exact List.find?_cons_of_pos _ (isPrefixOf_iff.mpr (List.prefix_append _ _))
  rw [hfindq]
  dsimp only
  have hsplit : splitSub (strL "=") (strL "boundary=" ++ b) = [strL "boundary", b] := by
    rw [show strL "boundary=" ++ b = strL "boundary" ++ strL "=" ++ b from by
      rw [show strL "boundary=" = strL "boundary" ++ strL "=" from rfl]]
    rw [splitSub_append_self (by decide) (by decide)]
    rw [splitSub_of_none (findSub_none_of_not_mem '=' (by decide)
      (boundaryOk_not_mem hb (by decide)))]
  rw [hsplit]
  rfl

/-- Splitting any well-formed synthetic part succeeds and yields its job. -/
theorem splitPart_jobOfT (t : RTree) (hwf : wfT t = true) :
    splitPart (encContent t ++ crlf) = .ok (jobOfT t) := by
  cases t with
  | leaf st bd => exact splitPart_leaf st bd
  | node b cs =>
    have hb : boundaryOk b = true := by
      unfold wfT at hwf
      simp only [Bool.and_eq_true] at hwf
      exact hwf.1.1.1
    exact splitPart_node b cs hb

/-- The eager split of a well-formed forest's chunks succeeds with its
jobs. -/
theorem splitAll_chunksF : ∀ n : Nat, ∀ cs : RForest, sizeOf cs ≤ n → wfF cs = true →
    splitAll (chunksStrF cs) = .ok (jobsF cs) := by
  intro n
  induction n with
  | zero =>
    intro cs h hwf
    cases cs with
    | nil => rfl
    | cons t ts =>
      exfalso
      have := RForest.cons.sizeOf_spec t ts
      omega
  | succ n ihn =>
    intro cs h hwf
    cases cs with
    | nil => rfl
    | cons t ts =>
      have hwft : wfT t = true ∧ wfF ts = true := by
        unfold wfF at hwf
        simp only [Bool.and_eq_true] at hwf
        exact hwf
      have hts : sizeOf ts ≤ n := by
        have := RForest.cons.sizeOf_spec t ts
        omega
      show splitAll ((encContent t ++ crlf) :: chunksStrF ts) = .ok (jobOfT t :: jobsF ts)
      unfold splitAll
      rw [splitPart_jobOfT t hwft.1]
      dsimp only
      rw [ihn ts hts hwft.2]

/-- Processing the jobs of a well-formed forest in front of any further jobs
yields its leaves in order, followed by the remaining results. -/
theorem parseParts_jobsF_aux : ∀ n : Nat, ∀ cs : RForest, sizeOf cs ≤ n → wfF cs = true →
    ∀ xs : List (Headers × Str), ∀ rs : List Resp, parseParts xs = .ok rs →
    parseParts (jobsF cs ++ xs) = .ok (leavesF cs ++ rs) := by
  intro n
  induction n with
  | zero =>
    intro cs hsz hwf xs rs hxs
    cases cs with
    | nil => exact hxs
    | cons t ts =>
      exfalso
      have := RForest.cons.sizeOf_spec t ts
      omega
  | succ n ihn =>
    intro cs hsz hwf xs rs hxs
    cases cs with
    | nil => exact hxs
    | cons t ts =>
      have hwft : wfT t = true ∧ wfF ts = true := by
        unfold wfF at hwf
        simp only [Bool.and_eq_true] at hwf
        exact hwf
      have hts : sizeOf ts ≤ n := by
        have := RForest.cons.sizeOf_spec t ts
        omega
      have hrest := ihn ts hts hwft.2 xs rs hxs
      cases t with
      | leaf st bd =>
        have hh := hwft.1
        unfold wfT at hh
        simp only [Bool.and_eq_true] at hh
        have hst : statusOkB st = true := hh.1
        have hbd : jsTrim (bd ++ crlf) = bd := eq_of_beq hh.2
        show parseParts ((httpPartHeaders, leafHttp st bd ++ crlf) :: (jobsF ts ++ xs))
          = _
        rw [parseParts_cons]
        rw [show hget httpPartHeaders ctKey = some (strL "application/http") from by decide]
        dsimp only
        rw [if_neg (by decide), if_pos rfl]
        rw [parseHttpResponse_leaf st bd hst hbd]
        dsimp only
        rw [hrest]
        dsimp only
        rw [show leavesF (.cons (.leaf st bd) ts) = mkResp st bd :: leavesF ts from rfl]
        rw [List.cons_append]
      | node b2 cs2 =>
        have hwfn := hwft.1
        unfold wfT at hwfn
        simp only [Bool.and_eq_true] at hwfn
        obtain ⟨⟨⟨hb2, hend2⟩, hchunks2⟩, hwf2⟩ := hwfn
        have hcs2 : sizeOf cs2 ≤ n := by
          have h1 := RForest.cons.sizeOf_spec (.node b2 cs2) ts
          have h2 := RTree.node.sizeOf_spec b2 cs2
          omega
        have hinner : parseParts (jobsF cs2) = .ok (leavesF cs2) := by
          have h0 := ihn cs2 hcs2 hwf2 [] [] parseParts_nil
          simpa using h0
        show parseParts (([(strL "Content-Type", mmHeaderVal b2)], encBody b2 cs2 ++ crlf)
          :: (jobsF ts ++ xs)) = _
        rw [parseParts_cons]
        rw [hget_ct_single (mmHeaderVal b2)]
        dsimp only
        rw [if_neg (mmHeaderVal_ne_nil b2), if_neg (mm_ne_http b2), if_pos (mm_isPrefix b2)]
        rw [getBoundary_mm hb2 (hget_ct_single (mmHeaderVal b2))]
        dsimp only
        rw [partsOf_encBody cs2 crlf hend2 hchunks2]
        rw [splitAll_chunksF (sizeOf cs2) cs2 le_rfl hwf2]
        dsimp only
        rw [hinner]
        dsimp only
        rw [hrest]
        dsimp only
        rw [show leavesF (.cons (.node b2 cs2) ts) = leavesF cs2 ++ leavesF ts from rfl]
        rw [List.append_assoc]

/-- Decoding a well-formed synthetic envelope yields its in-order leaves:
the shared core of the nested-decode and round-trip claims. -/
theorem parseMulti_encBody {b : Str} {cs : RForest} (hwf : wfT (.node b cs) = true) :
    parseMultipartResponse (encBody b cs) [(strL "Content-Type", mmHeaderVal b)]
      = .ok (leavesF cs) := by
  unfold wfT at hwf
  simp only [Bool.and_eq_true] at hwf
  obtain ⟨⟨⟨hb, hend⟩, hchunks⟩, hwfF⟩ := hwf
  unfold parseMultipartResponse
  rw [getBoundary_mm hb (hget_ct_single (mmHeaderVal b))]
  dsimp only
  have hp : partsOf (encBody b cs) b = chunksStrF cs := by
    have h0 := partsOf_encBody cs [] hend hchunks
    simpa using h0
  rw [hp]
  rw [splitAll_chunksF (sizeOf cs) cs le_rfl hwfF]
  dsimp only
  have h1 := parseParts_jobsF_aux (sizeOf cs) cs le_rfl hwfF [] [] parseParts_nil
  simpa using h1

set_option maxRecDepth 100000 in
/-- Counterexample to claim C5 as stated: a well-framed multipart body whose
single `application/http` leaf carries status 204 does not decode to that
leaf's response — the `Response` constructor throws the platform `TypeError`
(a string body with a null-body status), so the decoder fails instead of
splicing the leaves. -/
theorem c5_counterexample :
    parseMultipartResponse (encBody (strL "B") (.cons (.leaf 204 (strL "x")) .nil))
        [(strL "Content-Type", mmHeaderVal (strL "B"))]
      = .error JsErr.typeError := by
  decide

/-- Claim C5 (amended): for every well-formed multipart body of any nesting
depth (`RTree`/`RForest` trees are arbitrarily deep) whose `application/http`
leaves all carry statuses the `Response` constructor accepts for a string
body (200-599 and not the null-body statuses 204/205/304 — `wfT` includes
`statusOkB`), `parseMultipartResponse` recursively decodes each part whose
content type starts with `multipart/mixed` as a nested envelope and splices
the nested results in place of that part, so the flat output list is exactly
the in-order list of the innermost `application/http` leaves; no maximum
depth is imposed.  (A leaf status outside that set makes the decoder throw,
per `c5_counterexample`.) -/
theorem c5_nested_splice (b : Str) (cs : RForest) (hwf : wfT (.node b cs) = true) :
    parseMultipartResponse (encBody b cs) [(strL "Content-Type", mmHeaderVal b)]
      = .ok (leavesF cs) :=
  parseMulti_encBody hwf

set_option maxRecDepth 100000 in
/-- Witness for C5 at a concrete depth-three input. -/
theorem c5_nested_splice_witness :
    parseMultipartResponse (encBody (strL "outer") c5ExForest)
        [(strL "Content-Type", mmHeaderVal (strL "outer"))]
      = .ok [mkResp 200 (strL "x"), mkResp 201 (strL "y"), mkResp 202 (strL "z")] := by
  rw [c5_nested_splice (strL "outer") c5ExForest (by decide)]
  decide

/-- Leaves of a leaf run. -/
theorem leavesF_leafRun (rf : Nat → RespData) : ∀ rs : List Req, ∀ k : Nat,
    leavesF (leafRun rf k rs)
      = (List.range' k rs.length).map (fun i => mkResp (rf i).status (rf i).body) := by
  intro rs
  induction rs with
  | nil => intro k; rfl
  | cons r rest ih =>
    intro k
    show leavesT (.leaf (rf k).status (rf k).body) ++ leavesF (leafRun rf (k + 1) rest) = _
    rw [ih (k + 1)]
    rw [show (r :: rest).length = rest.length + 1 from rfl]
    rw [List.range'_succ k rest.length 1, List.map_cons]
    rfl

/-- Leaves of a synthetic response forest: one response per operation of the
flattened envelope, in caller order. -/
theorem leavesF_respForest (rf : Nat → RespData) (cbf : Nat → Str) :
    ∀ env : List BatchOp, ∀ k j : Nat,
    leavesF (respForest rf cbf env k j)
      = (List.range' k (flattenOps env).length).map
          (fun i => mkResp (rf i).status (rf i).body) := by
  intro env
  induction env with
  | nil => intro k j; rfl
  | cons op rest ih =>
    intro k j
    cases op with
    | single r =>
      show leavesT (.leaf (rf k).status (rf k).body)
          ++ leavesF (respForest rf cbf rest (k + 1) j) = _
      rw [ih (k + 1) j]
      rw [show (flattenOps (.single r :: rest)).length
            = (flattenOps rest).length + 1 by simp [flattenOps]]
      rw [List.range'_succ k (flattenOps rest).length 1, List.map_cons]
      rfl
    | changeset rs =>
      show leavesF (leafRun rf k rs)
          ++ leavesF (respForest rf cbf rest (k + rs.length) (j + 1)) = _
      rw [leavesF_leafRun rf rs k, ih (k + rs.length) (j + 1)]
      rw [show (flattenOps (.changeset rs :: rest)).length
            = (flattenOps rest).length + rs.length by simp [flattenOps]; omega]
      rw [← List.map_append]
      congr 1
      have h := List.range'_append k rs.length (flattenOps rest).length 1
      rw [Nat.one_mul] at h
      exact h

set_option maxRecDepth 100000 in
/-- Counterexample to claim C2 as stated: one POST operation whose synthetic
response, mirroring the serialized envelope exactly, carries status 204 —
the canonical response to a changeset member — makes the decoder throw the
platform `TypeError` instead of returning the response, so statuses are not
preserved for every operation list and response assignment. -/
theorem c2_counterexample :
    parseMultipartResponse
        (encBody (strL "B")
          (respForest (fun _ => { status := 204, body := strL "x" }) (fun _ => strL "C")
            (buildOperations [exPost1]) 0 0))
        [(strL "Content-Type", mmHeaderVal (strL "B"))]
      = .error JsErr.typeError := by
  decide

/-- Claim C2 (amended): serialize an operation list (the envelope
`buildOperations ops` is the structure `toRequest` frames with its
boundaries) and decode a synthetically constructed multipart response with
the same nested boundary structure (`respForest` mirrors the envelope,
giving the i-th operation the response `rf i`): provided every synthetic
response status is constructible for a string body (200-599 and not a
null-body status — part of the well-formedness `wfT`), the decoder returns
exactly one response per operation, in the original caller-supplied order,
with each response's status code and body preserved exactly.  (A 204
response makes the decoder throw instead, per `c2_counterexample`.) -/
theorem c2_round_trip (ops : List Req) (rf : Nat → RespData) (cbf : Nat → Str) (B : Str)
    (hwf : wfT (.node B (respForest rf cbf (buildOperations ops) 0 0)) = true) :
    parseMultipartResponse (encBody B (respForest rf cbf (buildOperations ops) 0 0))
        [(strL "Content-Type", mmHeaderVal B)]
      = .ok ((List.range ops.length).map (fun i => mkResp (rf i).status (rf i).body)) := by
  rw [parseMulti_encBody hwf]
  rw [leavesF_respForest rf cbf (buildOperations ops) 0 0]
  rw [(buildOperations_props ops).1]
  rw [List.range_eq_range']

set_option maxRecDepth 100000 in
/-- Witness for C2 at a concrete input: two operations, one GET and one POST,
so the envelope is a lone part plus a changeset. -/
theorem c2_round_trip_witness :
    parseMultipartResponse
        (encBody (strL "batchB")
          (respForest c2ExResp (fun _ => strL "csB") (buildOperations [exGet1, exPost1]) 0 0))
        [(strL "Content-Type", mmHeaderVal (strL "batchB"))]
      = .ok ((List.range ([exGet1, exPost1] : List Req).length).map
          (fun i => mkResp (c2ExResp i).status (c2ExResp i).body)) :=
  c2_round_trip [exGet1, exPost1] c2ExResp (fun _ => strL "csB") (strL "batchB") (by decide)

/-- Operations collected by `toRequestParts` are the flattened envelope after
each operation's body stream has been read by `formatRequest`. -/
theorem toRequestParts_ops (b : Str) (cbf : Nat → Str) :
    ∀ env : List BatchOp, ∀ i : Nat,
    (toRequestParts b cbf env i).2 = (flattenOps env).map (fun r => (formatRequest r).2) := by
  intro env
  induction env with
  | nil => intro i; rfl
  | cons op rest ih =>
    intro i
    cases op with
    | single r =>
      show (formatRequest r).2 :: (toRequestParts b cbf rest i).2 = _
      rw [ih i]
      rfl
    | changeset rs =>
      show (changesetPart b (cbf i) rs).2 ++ (toRequestParts b cbf rest (i + 1)).2 = _
      rw [ih (i + 1)]
      show (rs.map formatRequest).map (fun pr => pr.2) ++ _ = _
      rw [List.map_map]
      rw [show flattenOps (.changeset rs :: rest) = rs ++ flattenOps rest by
        simp [flattenOps]]
      rw [List.map_append]
      rfl

/-- Claim C8 (amended): `toRequest` does not leave the caller-supplied
operations untouched — it reads every operation's body stream.  After
serialization the i-th operation keeps its method, URL, header mapping and
body content, but its body stream is consumed: `bodyUsed` becomes true
whenever a body is present.  (The original claim, that operations are never
mutated, is refuted by `c8_counterexample`.) -/
theorem c8_operations_consumed (se auth b : Str) (cbf : Nat → Str) (ops : List Req) :
    (toRequest se auth b cbf (buildOperations ops)).2
        = ops.map (fun r => (formatRequest r).2)
    ∧ ∀ r : Req,
        ((formatRequest r).2).method = r.method
        ∧ ((formatRequest r).2).url = r.url
        ∧ ((formatRequest r).2).headers = r.headers
        ∧ ((formatRequest r).2).body = r.body
        ∧ ((formatRequest r).2).bodyUsed = (r.bodyUsed || r.body.isSome) := by
  constructor
  · show (toRequestParts b cbf (buildOperations ops) 0).2 = _
    rw [toRequestParts_ops b cbf (buildOperations ops) 0]
    rw [(buildOperations_props ops).1]
  · intro r
    unfold formatRequest
    cases hb : r.body with
    | none => simp [hb]
    | some s => simp

/-- Counterexample to the literal C8: serializing a batch holding one
operation with an unread body hands back an operation list different from the
caller's — the body stream has been consumed. -/
theorem c8_counterexample :
    (toRequest (strL "ep") (strL "auth") (strL "B") (fun _ => strL "C")
        (buildOperations [exPostBody])).2
      ≠ [exPostBody] := by decide

/-- A caller arriving while the handle exists changes nothing. -/
theorem callStart_pending {s : MgrState} (h : s.pending = true) : callStart s = s := by
  unfold callStart
  rw [h]
  rfl

/-- Any number of callers arriving while the handle exists change nothing. -/
theorem callsN_pending : ∀ n : Nat, ∀ s : MgrState, s.pending = true → callsN n s = s := by
  intro n
  induction n with
  | zero => intro s _; rfl
  | succ m ih =>
    intro s h
    show callsN m (callStart s) = s
    rw [callStart_pending h]
    exact ih s h

/-- Claim C6 (spec-modelled, `ClarisId.ts` not under `src/`): when N ≥ 1
callers concurrently invoke get authorization header on a manager with no
cached session and no pending handle, the identity-provider authenticate
capability is invoked exactly once (the call count rises by exactly one and
the shared handle exists), and settling the acquisition clears the handle
whether it succeeded or failed. -/
theorem c6_single_flight (n : Nat) (hn : 1 ≤ n) (s : MgrState)
    (hp : s.pending = false) (hs : s.session = none) (ok : Bool) (tok : Str) :
    (callsN n s).authCalls = s.authCalls + 1
    ∧ (callsN n s).pending = true
    ∧ (settle ok tok (callsN n s)).pending = false := by
  obtain ⟨m, rfl⟩ : ∃ m, n = m + 1 := ⟨n - 1, by omega⟩
  have h1 : callStart s = { s with pending := true, authCalls := s.authCalls + 1 } := by
    unfold callStart
    rw [hp, hs]
    rfl
  have h2 : callsN (m + 1) s = { s with pending := true, authCalls := s.authCalls + 1 } := by
    show callsN m (callStart s) = _
    rw [h1]
    exact callsN_pending m _ rfl
  rw [h2]
  exact ⟨rfl, rfl, rfl⟩

/-- Witness for C6: three concurrent callers on a fresh manager. -/
theorem c6_single_flight_witness :
    (callsN 3 ⟨false, 0, none⟩).authCalls = (0 : Nat) + 1
    ∧ (callsN 3 ⟨false, 0, none⟩).pending = true
    ∧ (settle false (strL "t") (callsN 3 ⟨false, 0, none⟩)).pending = false :=
  c6_single_flight 3 (by decide) ⟨false, 0, none⟩ rfl rfl false (strL "t")

/-- Claim C9 (spec-modelled, `ClarisId.ts` not under `src/`): every
successful get authorization header call returns exactly the literal string
`FMID ` followed by the current session's identity token: the first five
characters are `FMID ` and the rest is the token, verbatim. -/
theorem c9_fmid_scheme (s : Session) :
    getAuthorizationHeader s = strL "FMID " ++ s.idToken
    ∧ (getAuthorizationHeader s).take 5 = strL "FMID "
    ∧ (getAuthorizationHeader s).drop 5 = s.idToken := by
  refine ⟨rfl, ?_, ?_⟩
  · show ((strL "FMID " ++ s.idToken).take 5 = strL "FMID ")
    rw [show (5 : Nat) = (strL "FMID ").length from rfl]
    exact List.take_left _ _
  · show ((strL "FMID " ++ s.idToken).drop 5 = s.idToken)
    rw [show (5 : Nat) = (strL "FMID ").length from rfl]
    exact List.drop_left _ _

end FMOData
